import Mathlib

/-!
Verification of the color-mapping and content-stream-rewriting core of the
pdf-dark-mode-converter repository (`src/backend/pdf_processor_pikepdf.py`,
class `PDFVectorProcessorPikePDF`).

All real arithmetic of the Python source is embedded over `ℚ` (the source's
decimal literals are exact rationals; Python float `%` and `abs` become
`pmod` and `|·|`).
-/

namespace PDM

/-- A theme's background color, 8-bit components, as in `self.themes`. -/
structure Theme where
  r : ℚ
  g : ℚ
  b : ℚ
deriving DecidableEq, Repr

/-- The six built-in themes of `PDFVectorProcessorPikePDF.__init__`. -/
def themes : List (String × Theme) :=
  [("classic", ⟨0, 0, 0⟩),
   ("claude", ⟨42, 37, 34⟩),
   ("chatgpt", ⟨52, 53, 65⟩),
   ("sepia", ⟨40, 35, 25⟩),
   ("midnight", ⟨25, 30, 45⟩),
   ("forest", ⟨25, 35, 30⟩)]

def classicTheme : Theme := ⟨0, 0, 0⟩
def claudeTheme : Theme := ⟨42, 37, 34⟩
def chatgptTheme : Theme := ⟨52, 53, 65⟩
def sepiaTheme : Theme := ⟨40, 35, 25⟩
def midnightTheme : Theme := ⟨25, 30, 45⟩
def forestTheme : Theme := ⟨25, 35, 30⟩

/-- `self.themes.get(theme, self.themes["classic"])`. -/
def themeOf (name : String) : Theme :=
  match (themes.lookup name) with
  | some t => t
  | none => classicTheme

/-- Python `x % y` for `y > 0` (also the semantics of float `%`):
`x - y * floor (x / y)`. -/
def pmod (x y : ℚ) : ℚ := x - y * ⌊x / y⌋

/-- `PDFVectorProcessorPikePDF._rgb_to_hsv`. -/
def rgb_to_hsv (r g b : ℚ) : ℚ × ℚ × ℚ :=
  let max_val := max r (max g b)
  let min_val := min r (min g b)
  let diff := max_val - min_val
  let h : ℚ :=
    if diff = 0 then 0
    else if max_val = r then pmod (60 * ((g - b) / diff) + 360) 360
    else if max_val = g then pmod (60 * ((b - r) / diff) + 120) 360
    else pmod (60 * ((r - g) / diff) + 240) 360
  let s : ℚ := if max_val = 0 then 0 else diff / max_val
  (h / 360, s, max_val)

/-- `PDFVectorProcessorPikePDF._hsv_to_rgb`. -/
def hsv_to_rgb (h s v : ℚ) : ℚ × ℚ × ℚ :=
  let hh := h * 360
  let c := v * s
  let x := c * (1 - |pmod (hh / 60) 2 - 1|)
  let m := v - c
  let rgb : ℚ × ℚ × ℚ :=
    if 0 ≤ hh ∧ hh < 60 then (c, x, 0)
    else if 60 ≤ hh ∧ hh < 120 then (x, c, 0)
    else if 120 ≤ hh ∧ hh < 180 then (0, c, x)
    else if 180 ≤ hh ∧ hh < 240 then (0, x, c)
    else if 240 ≤ hh ∧ hh < 300 then (x, 0, c)
    else (c, 0, x)
  (rgb.1 + m, rgb.2.1 + m, rgb.2.2 + m)

/-- `PDFVectorProcessorPikePDF._transform_rgb`. -/
def transform_rgb (th : Theme) (r g b : ℚ) : ℚ × ℚ × ℚ :=
  let brightness := 0.299 * r + 0.587 * g + 0.114 * b
  if brightness > 0.93 then
    (th.r / 255, th.g / 255, th.b / 255)
  else
    let hsv := rgb_to_hsv r g b
    let h := hsv.1
    let s := hsv.2.1
    let v := hsv.2.2
    if brightness < 0.15 ∧ s < 0.3 then (0.98, 0.98, 0.98)
    else if brightness < 0.15 then
      let v1 := 0.65 + (v / 0.15) * 0.2
      let s1 := min (s * 1.1) 1
      let nrgb := hsv_to_rgb h s1 v1
      (min (max nrgb.1 0) 1, min (max nrgb.2.1 0) 1, min (max nrgb.2.2 0) 1)
    else if brightness < 0.4 then
      hsv_to_rgb h (s * 0.85) (0.75 + (v - 0.15) * 0.8)
    else if brightness < 0.6 then
      hsv_to_rgb h (s * 0.9) (0.65 + (v - 0.4) * 1.0)
    else
      hsv_to_rgb h s (0.5 + v * 0.5)

/-- `PDFVectorProcessorPikePDF._transform_grayscale`. -/
def transform_grayscale (th : Theme) (gray : ℚ) : ℚ :=
  if gray > 0.93 then
    (0.299 * th.r + 0.587 * th.g + 0.114 * th.b) / 255
  else if gray < 0.15 then 0.98
  else if gray < 0.4 then 0.75 + (gray - 0.15) * 0.8
  else if gray < 0.6 then 0.65 + (gray - 0.4) * 1.0
  else 0.5 + gray * 0.5

/-- `PDFVectorProcessorPikePDF._transform_cmyk`. -/
def transform_cmyk (th : Theme) (c m y k : ℚ) : ℚ × ℚ × ℚ × ℚ :=
  let r := (1 - c) * (1 - k)
  let g := (1 - m) * (1 - k)
  let b := (1 - y) * (1 - k)
  let n := transform_rgb th r g b
  let new_r := n.1
  let new_g := n.2.1
  let new_b := n.2.2
  if new_r = 0 ∧ new_g = 0 ∧ new_b = 0 then (0, 0, 0, 1)
  else
    let new_k := 1 - max new_r (max new_g new_b)
    if new_k < 1 then
      ((1 - new_r - new_k) / (1 - new_k),
       (1 - new_g - new_k) / (1 - new_k),
       (1 - new_b - new_k) / (1 - new_k),
       new_k)
    else (0, 0, 0, new_k)

/-- The CMYK→RGB conversion used at the top of `_transform_cmyk` (and in the
spec's CMYK policy): `R = (1-C)(1-K)` and so on. -/
def cmyk_to_rgb (c m y k : ℚ) : ℚ × ℚ × ℚ :=
  ((1 - c) * (1 - k), (1 - m) * (1 - k), (1 - y) * (1 - k))

/-- RGB view of the CMYK mapper's output: `_transform_cmyk` followed by the
CMYK→RGB conversion `R = (1-C)(1-K)` (the `cmyk_to_rgb ∘ map_cmyk` side of
the spec's round-trip property). -/
def transform_cmyk_rgbview (th : Theme) (c m y k : ℚ) : ℚ × ℚ × ℚ :=
  let q := transform_cmyk th c m y k
  cmyk_to_rgb q.1 q.2.1 q.2.2.1 q.2.2.2

/-- Characters matched by Python's `\s` on a latin-1-decoded string:
TAB..CR, FS..US, space, NEL and NBSP. -/
def isPySpace (c : Char) : Bool :=
  (9 ≤ c.toNat && c.toNat ≤ 13) || (28 ≤ c.toNat && c.toNat ≤ 31) ||
  c.toNat == 32 || c.toNat == 133 || c.toNat == 160

/-- Characters matched by Python's `\w` on a latin-1-decoded string: ASCII
alphanumerics, underscore, and the latin-1 letters and numeric signs. -/
def isWordChar (c : Char) : Bool :=
  c.isAlphanum || c == '_' ||
  c.toNat == 0xAA || c.toNat == 0xB5 || c.toNat == 0xBA ||
  (0xB2 ≤ c.toNat && c.toNat ≤ 0xB3) || c.toNat == 0xB9 ||
  (0xBC ≤ c.toNat && c.toNat ≤ 0xBE) ||
  (0xC0 ≤ c.toNat && c.toNat ≤ 0xD6) || (0xD8 ≤ c.toNat && c.toNat ≤ 0xF6) ||
  (0xF8 ≤ c.toNat && c.toNat ≤ 0xFF)

/-- Python's `\b` right after a word character: the next character, if any,
is not a word character. -/
def wordBoundary (rest : List Char) : Bool :=
  match rest with
  | [] => true
  | c :: _ => !(isWordChar c)

/-- Longest digit run at the head of the list, with the remainder. -/
def takeDigits : List Char → List Char × List Char
  | [] => ([], [])
  | c :: cs =>
    if c.isDigit then
      let p := takeDigits cs
      (c :: p.1, p.2)
    else ([], c :: cs)

/-- Longest `\s` run at the head of the list, with the remainder. -/
def takeSpaces : List Char → List Char × List Char
  | [] => ([], [])
  | c :: cs =>
    if isPySpace c then
      let p := takeSpaces cs
      (c :: p.1, p.2)
    else ([], c :: cs)

/-- Numeric value of a digit run. -/
def digitsVal (l : List Char) : ℕ :=
  l.foldl (fun a c => 10 * a + (c.toNat - 48)) 0

/-- Value of a decimal lexeme with integer digits `d1` and fractional
digits `d2` (Python `float` on the matched group). -/
def decVal (d1 d2 : List Char) : ℚ :=
  (digitsVal d1 : ℚ) + (digitsVal d2 : ℚ) / 10 ^ d2.length

/-- Greedy match of `\d*\.?\d+` (the `rg`/`RG` operand sub-pattern) at the
head of the list, returning the lexeme's value and the remainder. An
alternative shorter parse never rescues a failed continuation, because every
shorter parse is followed by a digit or a dot, which no continuation of the
source patterns accepts. -/
def matchNumA (l : List Char) : Option (ℚ × List Char) :=
  let p := takeDigits l
  match p.2 with
  | '.' :: r2 =>
    let q := takeDigits r2
    if q.1 ≠ [] then some (decVal p.1 q.1, q.2)
    else if p.1 ≠ [] then some (decVal p.1 [], p.2)
    else none
  | _ => if p.1 ≠ [] then some (decVal p.1 [], p.2) else none

/-- Greedy match of `\d+\.?\d*` (the `g`/`G`/`k`/`K` operand sub-pattern) at
the head of the list. The lexeme may end with a bare dot, as in Python. -/
def matchNumB (l : List Char) : Option (ℚ × List Char) :=
  let p := takeDigits l
  if p.1 = [] then none
  else
    match p.2 with
    | '.' :: r2 =>
      let q := takeDigits r2
      some (decVal p.1 q.1, q.2)
    | _ => some (decVal p.1 [], p.2)

/-- Greedy match of `\s+` at the head of the list. -/
def matchWs (l : List Char) : Option (List Char) :=
  let p := takeSpaces l
  if p.1 = [] then none else some p.2

/-- Round a rational to the nearest integer, ties to even (the rounding of
Python's fixed-point float formatting). -/
def roundHalfEven (x : ℚ) : ℤ :=
  let f := ⌊x⌋
  if x - f < 1/2 then f
  else if 1/2 < x - f then f + 1
  else if f % 2 = 0 then f else f + 1

/-- Decimal digits of a natural number (auxiliary, fuel-driven). -/
def natDigitsAux : ℕ → ℕ → List Char
  | 0, _ => []
  | fuel + 1, n =>
    if n < 10 then [Char.ofNat (48 + n)]
    else natDigitsAux fuel (n / 10) ++ [Char.ofNat (48 + n % 10)]

/-- Decimal digits of a natural number. -/
def natDigits (n : ℕ) : List Char := natDigitsAux (n + 1) n

/-- Python `f-string` formatting with `:.4f`: fixed-point, four fractional
digits, half-even rounding (our mapped values are nonnegative). -/
def format4 (q : ℚ) : List Char :=
  let n := (roundHalfEven (q * 10000)).toNat
  natDigits (n / 10000) ++ '.' ::
    [Char.ofNat (48 + n / 1000 % 10), Char.ofNat (48 + n / 100 % 10),
     Char.ofNat (48 + n / 10 % 10), Char.ofNat (48 + n % 10)]

/-- Match of the whole pattern
`(\d*\.?\d+)\s+(\d*\.?\d+)\s+(\d*\.?\d+)\s+<c1><c2>` (for `rg` and `RG`) at
the head of the list; on success returns `_replace_rgb`'s replacement text
and the remainder. -/
def matchRgbOp (c1 c2 : Char) (th : Theme) (l : List Char) :
    Option (List Char × List Char) :=
  match matchNumA l with
  | none => none
  | some (n1, r1) =>
    match matchWs r1 with
    | none => none
    | some r2 =>
      match matchNumA r2 with
      | none => none
      | some (n2, r3) =>
        match matchWs r3 with
        | none => none
        | some r4 =>
          match matchNumA r4 with
          | none => none
          | some (n3, r5) =>
            match matchWs r5 with
            | none => none
            | some r6 =>
              match r6 with
              | a :: b :: rest =>
                if a = c1 ∧ b = c2 then
                  let t := transform_rgb th n1 n2 n3
                  some (format4 t.1 ++ ' ' :: format4 t.2.1 ++
                    ' ' :: format4 t.2.2 ++ [' ', c1, c2], rest)
                else none
              | _ => none

/-- Match of the whole pattern `(\d+\.?\d*)\s+<cg>\b` (for `g` and `G`) at
the head of the list; on success returns `_replace_gray`'s replacement text
(note its trailing space) and the remainder. -/
def matchGrayOp (cg : Char) (th : Theme) (l : List Char) :
    Option (List Char × List Char) :=
  match matchNumB l with
  | none => none
  | some (n1, r1) =>
    match matchWs r1 with
    | none => none
    | some r2 =>
      match r2 with
      | a :: rest =>
        if a = cg ∧ wordBoundary rest then
          some (format4 (transform_grayscale th n1) ++ [' ', cg, ' '], rest)
        else none
      | _ => none

/-- Match of the whole pattern
`(\d+\.?\d*)\s+(\d+\.?\d*)\s+(\d+\.?\d*)\s+(\d+\.?\d*)\s+<ck>\b` (for `k`
and `K`) at the head of the list; on success returns `_replace_cmyk`'s
replacement text (trailing space included) and the remainder. -/
def matchCmykOp (ck : Char) (th : Theme) (l : List Char) :
    Option (List Char × List Char) :=
  match matchNumB l with
  | none => none
  | some (n1, r1) =>
    match matchWs r1 with
    | none => none
    | some r2 =>
      match matchNumB r2 with
      | none => none
      | some (n2, r3) =>
        match matchWs r3 with
        | none => none
        | some r4 =>
          match matchNumB r4 with
          | none => none
          | some (n3, r5) =>
            match matchWs r5 with
            | none => none
            | some r6 =>
              match matchNumB r6 with
              | none => none
              | some (n4, r7) =>
                match matchWs r7 with
                | none => none
                | some r8 =>
                  match r8 with
                  | a :: rest =>
                    if a = ck ∧ wordBoundary rest then
                      let t := transform_cmyk th n1 n2 n3 n4
                      some (format4 t.1 ++ ' ' :: format4 t.2.1 ++
                        ' ' :: format4 t.2.2.1 ++ ' ' :: format4 t.2.2.2 ++
                        [' ', ck, ' '], rest)
                    else none
                  | _ => none

/-- Python `re.sub` scanning: at each position try the pattern; on a match
emit the replacement and continue after the matched span (all our patterns
consume at least one character), otherwise copy one character. Fuel-driven;
`applyPass` supplies enough fuel. -/
def subst (matchAt : List Char → Option (List Char × List Char)) :
    ℕ → List Char → List Char
  | 0, l => l
  | _ + 1, [] => []
  | fuel + 1, c :: cs =>
    match matchAt (c :: cs) with
    | some (repl, rest) => repl ++ subst matchAt fuel rest
    | none => c :: subst matchAt fuel cs

/-- One `re.sub` pass over a whole list. -/
def applyPass (matchAt : List Char → Option (List Char × List Char))
    (l : List Char) : List Char :=
  subst matchAt l.length l

/-- `PDFVectorProcessorPikePDF._transform_content_stream`: the six `re.sub`
passes, in source order (`rg`, `RG`, `g`, `G`, `k`, `K`), each applied to the
previous pass's output. -/
def transformContentStream (th : Theme) (s : List Char) : List Char :=
  let p1 := applyPass (matchRgbOp 'r' 'g' th) s
  let p2 := applyPass (matchRgbOp 'R' 'G' th) p1
  let p3 := applyPass (matchGrayOp 'g' th) p2
  let p4 := applyPass (matchGrayOp 'G' th) p3
  let p5 := applyPass (matchCmykOp 'k' th) p4
  applyPass (matchCmykOp 'K' th) p5

/-- String-typed wrapper of `transformContentStream` (content streams are
latin-1 decoded to `str` by `_process_page`, one `Char` per byte). -/
def transformContentStr (th : Theme) (s : String) : String :=
  String.mk (transformContentStream th s.data)

/-- The six matchers of `_transform_content_stream`, in pass order. -/
def passes (th : Theme) : List (List Char → Option (List Char × List Char)) :=
  [matchRgbOp 'r' 'g' th, matchRgbOp 'R' 'G' th, matchGrayOp 'g' th,
   matchGrayOp 'G' th, matchCmykOp 'k' th, matchCmykOp 'K' th]

/-- Composition `_hsv_to_rgb ∘ _rgb_to_hsv` on an RGB triple (the round
trip the HSV remapping bands rely on). -/
def hsvRoundTrip (r g b : ℚ) : ℚ × ℚ × ℚ :=
  let t := rgb_to_hsv r g b
  hsv_to_rgb t.1 t.2.1 t.2.2

/-- Decomposition of one `re.sub` pass: the output is the input with each
matched span replaced by its replacement and every byte at which no match
starts copied through unchanged. -/
inductive Decomp (matchAt : List Char → Option (List Char × List Char)) :
    List Char → List Char → Prop where
  | nil : Decomp matchAt [] []
  | copy (c : Char) (l out : List Char) :
      matchAt (c :: l) = none → Decomp matchAt l out →
      Decomp matchAt (c :: l) (c :: out)
  | rew (mtk repl rest out : List Char) :
      matchAt (mtk ++ rest) = some (repl, rest) → mtk ≠ [] →
      Decomp matchAt rest out → Decomp matchAt (mtk ++ rest) (repl ++ out)

/-- A matcher only ever consumes a nonempty prefix: a successful match
splits its input into the matched span and the returned remainder. -/
def Consumes (matchAt : List Char → Option (List Char × List Char)) : Prop :=
  ∀ l repl rest, matchAt l = some (repl, rest) →
    ∃ mtk, mtk ≠ [] ∧ l = mtk ++ rest
/-- Bytes that can make up a numeric operand list in a content stream:
digits, the decimal dot, and `\s` whitespace. -/
def OperandChar (c : Char) : Bool :=
  c.isDigit || c = '.' || isPySpace c

/-- The letters of the `sc`/`SC`/`scn`/`SCN` operators. -/
def ScLetter (c : Char) : Bool :=
  c = 's' || c = 'S' || c = 'c' || c = 'C' || c = 'n' || c = 'N'

/-- Bytes that can occur inside a span matched by one of the six color
patterns: operand bytes and the pattern letters. -/
def SpanChar (c : Char) : Bool :=
  OperandChar c || c = 'g' || c = 'G' || c = 'r' || c = 'R' ||
    c = 'k' || c = 'K'

/-- A matcher whose every matched span is made of span bytes and ends in
`g`, `G`, `k` or `K`; such a span can never touch an `sc`-family operator
or its operand run. -/
def ScSafe (matchAt : List Char → Option (List Char × List Char)) : Prop :=
  ∀ l repl rest, matchAt l = some (repl, rest) →
    ∃ mtk L, l = (mtk ++ [L]) ++ rest ∧ (∀ c ∈ mtk, SpanChar c = true) ∧
      (L = 'g' ∨ L = 'G' ∨ L = 'k' ∨ L = 'K')

/-- A page as `_process_page` sees it: an optional media box (`none` models a
page whose `MediaBox` access raises), optional content streams (`none` models
a page with no `/Contents`; an array of streams is a list), and the underlay
fragments added so far by `add_underlay` (theme color normalized to `[0,1]`
plus the page width and height). -/
structure Page where
  mediaBox : Option (ℚ × ℚ × ℚ × ℚ)
  contents : Option (List String)
  underlay : List ((ℚ × ℚ × ℚ) × ℚ × ℚ)
deriving DecidableEq

/-- Body of `_process_page`'s `try` block, with the content-stream rewrite
abstracted as a fallible `rw` (the real rewriter, or any internal failure
raising mid-rewrite). On an exception the error carries the page as mutated
so far, since the Python code mutates `page` in place. -/
def processPageBody (th : Theme) (rw : String → Except String String)
    (p : Page) : Except (String × Page) Page :=
  match p.mediaBox with
  | none => .error ("page has no MediaBox", p)
  | some (x0, y0, x1, y1) =>
    let w := x1 - x0
    let h := y1 - y0
    let p1 : Page :=
      { p with underlay :=
          p.underlay ++ [((th.r / 255, th.g / 255, th.b / 255), w, h)] }
    match p1.contents with
    | none => .ok p1
    | some streams =>
      let combined := String.intercalate "\n" streams
      match rw combined with
      | .error e => .error (e, p1)
      | .ok modified => .ok { p1 with contents := some [modified] }

/-- `_process_page`: the `try` body with the blanket `except` that logs and
returns, leaving the page as mutated so far. -/
def processPage (th : Theme) (rw : String → Except String String)
    (p : Page) : Page :=
  match processPageBody th rw p with
  | .ok p1 => p1
  | .error (_, p1) => p1

/-- The page loop of `process_pdf`: every page is processed in order. -/
def processPdf (th : Theme) (rw : String → Except String String)
    (pages : List Page) : List Page :=
  pages.map (processPage th rw)

/-- Componentwise closeness of two RGB triples up to `1/255`. -/
def close255 (p q : ℚ × ℚ × ℚ) : Prop :=
  |p.1 - q.1| ≤ 1/255 ∧ |p.2.1 - q.2.1| ≤ 1/255 ∧ |p.2.2 - q.2.2| ≤ 1/255

instance (p q : ℚ × ℚ × ℚ) : Decidable (close255 p q) := by
  unfold close255; infer_instance

/-- The theme's background color normalized to `[0,1]`. -/
def bgNorm (th : Theme) : ℚ × ℚ × ℚ := (th.r / 255, th.g / 255, th.b / 255)

/-- Image of the theme's own (normalized) background under the RGB mapper. -/
def mapBg (th : Theme) : ℚ × ℚ × ℚ :=
  transform_rgb th (th.r / 255) (th.g / 255) (th.b / 255)

end PDM

namespace PDM

/-- C2: for every RGB input in `[0,1]^3` whose luminance
`Y = 0.299 r + 0.587 g + 0.114 b` exceeds `0.93`, `_transform_rgb` returns
exactly the theme background normalized to `[0,1]` (first branch of the
piecewise policy). -/
theorem near_white_collapse (th : Theme) (r g b : ℚ)
    (_hr0 : 0 ≤ r) (_hr1 : r ≤ 1) (_hg0 : 0 ≤ g) (_hg1 : g ≤ 1)
    (_hb0 : 0 ≤ b) (_hb1 : b ≤ 1)
    (hY : 0.299 * r + 0.587 * g + 0.114 * b > 0.93) :
    transform_rgb th r g b = (th.r / 255, th.g / 255, th.b / 255) := by
  simp only [transform_rgb]
  rw [if_pos hY]

/-- Witness for `near_white_collapse` at input `(0.95, 0.95, 0.95)` under the
claude theme. -/
theorem near_white_collapse_witness :
    transform_rgb claudeTheme 0.95 0.95 0.95 = (42/255, 37/255, 34/255) :=
  near_white_collapse claudeTheme 0.95 0.95 0.95
    (by norm_num) (by norm_num) (by norm_num) (by norm_num)
    (by norm_num) (by norm_num) (by norm_num)

/-- Evaluation of the classic background under the mapper: it lands in the
near-black low-saturation band. -/
lemma mapBg_classic : mapBg classicTheme = (0.98, 0.98, 0.98) := by
  norm_num [mapBg, classicTheme, transform_rgb, rgb_to_hsv, hsv_to_rgb, pmod,
    max_def, min_def]

/-- Evaluation of the claude background under the mapper: luminance
`38153/255000 < 0.15` and saturation `8/42 < 0.3`. -/
lemma mapBg_claude : mapBg claudeTheme = (0.98, 0.98, 0.98) := by
  norm_num [mapBg, claudeTheme, transform_rgb, rgb_to_hsv, hsv_to_rgb, pmod,
    max_def, min_def,
    show ⌊(17/16 : ℚ)⌋ = 1 from by norm_num [Int.floor_eq_iff]]

/-- Evaluation of the forest background under the mapper. -/
lemma mapBg_forest : mapBg forestTheme = (0.98, 0.98, 0.98) := by
  norm_num [mapBg, forestTheme, transform_rgb, rgb_to_hsv, hsv_to_rgb, pmod,
    max_def, min_def,
    show ⌊(5/12 : ℚ)⌋ = 0 from by norm_num [Int.floor_eq_iff]]

/-- Evaluation of the chatgpt background under the mapper (Dark band). -/
lemma mapBg_chatgpt :
    mapBg chatgptTheme = (352999/510000, 582661/828750, 4253/5100) := by
  norm_num [mapBg, chatgptTheme, transform_rgb, rgb_to_hsv, hsv_to_rgb, pmod,
    max_def, min_def, abs_of_nonneg,
    show ⌊(17/26 : ℚ)⌋ = 0 from by norm_num [Int.floor_eq_iff],
    show ⌊(51/26 : ℚ)⌋ = 1 from by norm_num [Int.floor_eq_iff]]

/-- Evaluation of the sepia background under the mapper (near-black colored
band). -/
lemma mapBg_sepia :
    mapBg sepiaTheme = (2629/3060, 60467/81600, 123563/244800) := by
  norm_num [mapBg, sepiaTheme, transform_rgb, rgb_to_hsv, hsv_to_rgb, pmod,
    max_def, min_def, abs_of_nonneg,
    show ⌊(10/9 : ℚ)⌋ = 1 from by norm_num [Int.floor_eq_iff],
    show ⌊(1/3 : ℚ)⌋ = 0 from by norm_num [Int.floor_eq_iff]]

/-- Evaluation of the midnight background under the mapper (near-black
colored band). -/
lemma mapBg_midnight :
    mapBg midnightTheme = (6923/15300, 5719/10200, 301/340) := by
  norm_num [mapBg, midnightTheme, transform_rgb, rgb_to_hsv, hsv_to_rgb, pmod,
    max_def, min_def, abs_of_nonneg,
    show ⌊(5/8 : ℚ)⌋ = 0 from by norm_num [Int.floor_eq_iff],
    show ⌊(15/8 : ℚ)⌋ = 1 from by norm_num [Int.floor_eq_iff]]

/-- C1 counterexample: for the classic theme (background `(0,0,0)`), mapping
the background through `_transform_rgb` yields `(0.98, 0.98, 0.98)`, which is
not within `1/255` of the background in any component: the background has
luminance `0 < 0.93` and saturation `0 < 0.3`, so it falls in the near-black
band, not the near-white band. -/
theorem bg_not_fixed_classic :
    mapBg classicTheme = (0.98, 0.98, 0.98) ∧
    ¬ close255 (mapBg classicTheme) (bgNorm classicTheme) := by
  refine ⟨mapBg_classic, ?_⟩
  rw [mapBg_classic]
  norm_num [close255, bgNorm, classicTheme, abs_le]

/-- C1 amended: no built-in theme's background is a fixed point of the RGB
mapper, even up to `1/255` per component; every background has luminance
below `0.93` and is brightened (for classic, claude and forest it lands in
the near-black band and maps to `(0.98, 0.98, 0.98)`). -/
theorem bg_never_fixed :
    (¬ close255 (mapBg classicTheme) (bgNorm classicTheme)) ∧
    (¬ close255 (mapBg claudeTheme) (bgNorm claudeTheme)) ∧
    (¬ close255 (mapBg chatgptTheme) (bgNorm chatgptTheme)) ∧
    (¬ close255 (mapBg sepiaTheme) (bgNorm sepiaTheme)) ∧
    (¬ close255 (mapBg midnightTheme) (bgNorm midnightTheme)) ∧
    (¬ close255 (mapBg forestTheme) (bgNorm forestTheme)) ∧
    mapBg classicTheme = (0.98, 0.98, 0.98) ∧
    mapBg claudeTheme = (0.98, 0.98, 0.98) ∧
    mapBg forestTheme = (0.98, 0.98, 0.98) := by
  rw [mapBg_classic, mapBg_claude, mapBg_chatgpt, mapBg_sepia, mapBg_midnight,
    mapBg_forest]
  norm_num [close255, bgNorm, classicTheme, claudeTheme, chatgptTheme,
    sepiaTheme, midnightTheme, forestTheme, abs_le]

/-- C8 counterexample: under the claude theme the gray mapper sends `0.9` to
`0.95`, not to the background luminance: `0.9` does not exceed the near-white
threshold `0.93`, and `0.95` is not `38153/255000` (the claude background
luminance, which is `≈ 0.1496`, not the spec's `0.1556`). -/
theorem gray_09_not_bg_luminance :
    transform_grayscale claudeTheme (9/10) = 19/20 ∧
    ¬ ((9 : ℚ)/10 > 0.93) ∧
    ((19 : ℚ)/20 ≠ 38153/255000) ∧
    ¬ (|(19 : ℚ)/20 - 1556/10000| ≤ 1/255) := by
  norm_num [transform_grayscale, claudeTheme, abs_le]

/-- C8 amended: gray `0.9` is below the near-white threshold `0.93`, so the
claude gray mapper returns `0.5 + 0.9·0.5 = 0.95`; only inputs above `0.93`
(such as `0.95`) return the background luminance, which for claude is
`38153/255000 ≈ 0.1496`. -/
theorem gray_09_claude :
    transform_grayscale claudeTheme (9/10) = 19/20 ∧
    transform_grayscale claudeTheme (95/100) = 38153/255000 := by
  norm_num [transform_grayscale, claudeTheme]

/-- C5 counterexample: the RGB input `(0, 0.3, 1)` lies in `[0,1]^3` and has
luminance `0.2901`, so it is handled by the Dark band, which does not clamp:
the blue component of the output is `1.43 > 1`. -/
theorem output_component_above_one :
    (transform_rgb classicTheme 0 (3/10) 1).2.2 = 143/100 ∧
    ¬ ((143 : ℚ)/100 ≤ 1) := by
  norm_num [transform_rgb, classicTheme, rgb_to_hsv, hsv_to_rgb, pmod,
    max_def, min_def,
    show ⌊(37/60 : ℚ)⌋ = 0 from by norm_num [Int.floor_eq_iff],
    show ⌊(37/20 : ℚ)⌋ = 1 from by norm_num [Int.floor_eq_iff]]


/-- Python float `%` with a positive modulus is nonnegative. -/
lemma pmod_nonneg (x y : ℚ) (hy : 0 < y) : 0 ≤ pmod x y := by
  have h := Int.floor_le (x / y)
  have h2 : (⌊x / y⌋ : ℚ) * y ≤ x / y * y := mul_le_mul_of_nonneg_right h hy.le
  rw [div_mul_cancel₀ _ hy.ne'] at h2
  unfold pmod
  nlinarith

/-- Python float `%` with a positive modulus is below the modulus. -/
lemma pmod_lt (x y : ℚ) (hy : 0 < y) : pmod x y < y := by
  have h := Int.lt_floor_add_one (x / y)
  have h2 : x / y * y < ((⌊x / y⌋ : ℚ) + 1) * y := by
    exact mul_lt_mul_of_pos_right h hy
  rw [div_mul_cancel₀ _ hy.ne'] at h2
  unfold pmod
  nlinarith

/-- Each component of `_hsv_to_rgb h s v` lies in `[0, v]` when `s ∈ [0,1]`
and `v ≥ 0` (components are `c`, `x` or `0` plus `m = v - c`). -/
lemma hsv_to_rgb_bounds (h s v : ℚ) (hs0 : 0 ≤ s) (hs1 : s ≤ 1) (hv : 0 ≤ v) :
    0 ≤ (hsv_to_rgb h s v).1 ∧ (hsv_to_rgb h s v).1 ≤ v ∧
    0 ≤ (hsv_to_rgb h s v).2.1 ∧ (hsv_to_rgb h s v).2.1 ≤ v ∧
    0 ≤ (hsv_to_rgb h s v).2.2 ∧ (hsv_to_rgb h s v).2.2 ≤ v := by
  have hp0 : 0 ≤ pmod (h * 360 / 60) 2 := pmod_nonneg _ _ (by norm_num)
  have hp2 : pmod (h * 360 / 60) 2 < 2 := pmod_lt _ _ (by norm_num)
  have habs : |pmod (h * 360 / 60) 2 - 1| ≤ 1 := abs_le.mpr ⟨by linarith, by linarith⟩
  have habs0 : 0 ≤ |pmod (h * 360 / 60) 2 - 1| := abs_nonneg _
  have hc0 : 0 ≤ v * s := mul_nonneg hv hs0
  have hcv : v * s ≤ v := by nlinarith
  have hx0 : 0 ≤ v * s * (1 - |pmod (h * 360 / 60) 2 - 1|) := by nlinarith
  have hxc : v * s * (1 - |pmod (h * 360 / 60) 2 - 1|) ≤ v * s := by nlinarith
  simp only [hsv_to_rgb]
  split_ifs <;>
    refine ⟨?_, ?_, ?_, ?_, ?_, ?_⟩ <;> simp <;> linarith

/-- Saturation returned by `_rgb_to_hsv` lies in `[0,1]` for nonnegative
inputs, and the value component is the input maximum. -/
lemma rgb_to_hsv_sv (r g b : ℚ) (hr : 0 ≤ r) (hg : 0 ≤ g) (hb : 0 ≤ b) :
    0 ≤ (rgb_to_hsv r g b).2.1 ∧ (rgb_to_hsv r g b).2.1 ≤ 1 ∧
    (rgb_to_hsv r g b).2.2 = max r (max g b) := by
  have hmax0 : 0 ≤ max r (max g b) := le_trans hr (le_max_left _ _)
  have hmin0 : 0 ≤ min r (min g b) := le_min hr (le_min hg hb)
  have hminmax : min r (min g b) ≤ max r (max g b) :=
    le_trans (min_le_left _ _) (le_max_left _ _)
  refine ⟨?_, ?_, rfl⟩
  · simp only [rgb_to_hsv]
    split_ifs with h0
    · exact le_refl 0
    · exact div_nonneg (by linarith) hmax0
  · simp only [rgb_to_hsv]
    split_ifs with h0
    · norm_num
    · rw [div_le_one (lt_of_le_of_ne hmax0 (Ne.symm h0))]
      linarith

/-- Every component returned by `_transform_rgb` is nonnegative, for any
nonnegative theme background and nonnegative input. -/
lemma transform_rgb_nonneg (th : Theme)
    (h0r : 0 ≤ th.r) (h0g : 0 ≤ th.g) (h0b : 0 ≤ th.b)
    (r g b : ℚ) (hr : 0 ≤ r) (hg : 0 ≤ g) (hb : 0 ≤ b) :
    0 ≤ (transform_rgb th r g b).1 ∧ 0 ≤ (transform_rgb th r g b).2.1 ∧
    0 ≤ (transform_rgb th r g b).2.2 := by
  obtain ⟨hs0, hs1, hveq⟩ := rgb_to_hsv_sv r g b hr hg hb
  have hv0 : 0 ≤ (rgb_to_hsv r g b).2.2 := by
    rw [hveq]; exact le_trans hr (le_max_left _ _)
  simp only [transform_rgb]
  split_ifs with h1 h2 h3 h4 h5
  · exact ⟨div_nonneg h0r (by norm_num), div_nonneg h0g (by norm_num),
      div_nonneg h0b (by norm_num)⟩
  · norm_num
  · exact ⟨le_min (le_max_right _ _) zero_le_one,
      le_min (le_max_right _ _) zero_le_one,
      le_min (le_max_right _ _) zero_le_one⟩
  · have := hsv_to_rgb_bounds (rgb_to_hsv r g b).1
      ((rgb_to_hsv r g b).2.1 * 0.85) (0.75 + ((rgb_to_hsv r g b).2.2 - 0.15) * 0.8)
      (by nlinarith) (by nlinarith) (by nlinarith)
    exact ⟨this.1, this.2.2.1, this.2.2.2.2.1⟩
  · have := hsv_to_rgb_bounds (rgb_to_hsv r g b).1
      ((rgb_to_hsv r g b).2.1 * 0.9) (0.65 + ((rgb_to_hsv r g b).2.2 - 0.4) * 1.0)
      (by nlinarith) (by nlinarith) (by nlinarith)
    exact ⟨this.1, this.2.2.1, this.2.2.2.2.1⟩
  · have := hsv_to_rgb_bounds (rgb_to_hsv r g b).1
      (rgb_to_hsv r g b).2.1 (0.5 + (rgb_to_hsv r g b).2.2 * 0.5)
      hs0 hs1 (by nlinarith)
    exact ⟨this.1, this.2.2.1, this.2.2.2.2.1⟩

/-- C5 amended: for inputs in `[0,1]^3` whose luminance is outside
`[0.15, 0.6)` — i.e. handled by the near-white, near-black, or final band —
every component of the RGB mapper's output lies in `[0,1]`; the counterexample
shows the Dark band (which, unlike the near-black colored band, does not
clamp) can exceed 1. -/
theorem rgb_output_in_unit_outside_mid_bands (th : Theme)
    (h0r : 0 ≤ th.r) (hr255 : th.r ≤ 255) (h0g : 0 ≤ th.g) (hg255 : th.g ≤ 255)
    (h0b : 0 ≤ th.b) (hb255 : th.b ≤ 255)
    (r g b : ℚ) (hr0 : 0 ≤ r) (hr1 : r ≤ 1) (hg0 : 0 ≤ g) (hg1 : g ≤ 1)
    (hb0 : 0 ≤ b) (hb1 : b ≤ 1)
    (hY : 0.299 * r + 0.587 * g + 0.114 * b < 0.15 ∨
          0.6 ≤ 0.299 * r + 0.587 * g + 0.114 * b) :
    (0 ≤ (transform_rgb th r g b).1 ∧ (transform_rgb th r g b).1 ≤ 1) ∧
    (0 ≤ (transform_rgb th r g b).2.1 ∧ (transform_rgb th r g b).2.1 ≤ 1) ∧
    (0 ≤ (transform_rgb th r g b).2.2 ∧ (transform_rgb th r g b).2.2 ≤ 1) := by
  obtain ⟨hs0, hs1, hveq⟩ := rgb_to_hsv_sv r g b hr0 hg0 hb0
  have hv0 : 0 ≤ (rgb_to_hsv r g b).2.2 := by
    rw [hveq]; exact le_trans hr0 (le_max_left _ _)
  have hv1 : (rgb_to_hsv r g b).2.2 ≤ 1 := by
    rw [hveq]; exact max_le hr1 (max_le hg1 hb1)
  simp only [transform_rgb]
  split_ifs with h1 h2 h3 h4 h5
  · constructor
    constructor
    · exact div_nonneg h0r (by norm_num)
    · rw [div_le_one (by norm_num : (0:ℚ) < 255)]; linarith
    constructor
    constructor
    · exact div_nonneg h0g (by norm_num)
    · rw [div_le_one (by norm_num : (0:ℚ) < 255)]; linarith
    constructor
    · exact div_nonneg h0b (by norm_num)
    · rw [div_le_one (by norm_num : (0:ℚ) < 255)]; linarith
  · norm_num
  · refine ⟨⟨?_, ?_⟩, ⟨?_, ?_⟩, ?_, ?_⟩ <;>
      first
        | exact le_min (le_max_right _ _) zero_le_one
        | exact min_le_right _ _
  · exfalso
    rcases hY with hY | hY
    · exact h3 hY
    · linarith
  · exfalso
    rcases hY with hY | hY
    · exact h3 hY
    · linarith
  · have hb6 := hsv_to_rgb_bounds (rgb_to_hsv r g b).1
      (rgb_to_hsv r g b).2.1 (0.5 + (rgb_to_hsv r g b).2.2 * 0.5)
      hs0 hs1 (by linarith)
    have hvv : 0.5 + (rgb_to_hsv r g b).2.2 * 0.5 ≤ 1 := by linarith
    exact ⟨⟨hb6.1, le_trans hb6.2.1 hvv⟩, ⟨hb6.2.2.1, le_trans hb6.2.2.2.1 hvv⟩,
      hb6.2.2.2.2.1, le_trans hb6.2.2.2.2.2 hvv⟩

/-- Converting `_transform_cmyk`'s output back to RGB recovers exactly the
intermediate `_transform_rgb` output, as long as that output is
componentwise nonnegative. -/
lemma cmyk_view_eq (th : Theme) (c m y k : ℚ) (p : ℚ × ℚ × ℚ)
    (hn : transform_rgb th ((1 - c) * (1 - k)) ((1 - m) * (1 - k))
      ((1 - y) * (1 - k)) = p)
    (p1 : 0 ≤ p.1) (p2 : 0 ≤ p.2.1) (p3 : 0 ≤ p.2.2) :
    transform_cmyk_rgbview th c m y k = p := by
  obtain ⟨a, b2, c2⟩ := p
  simp only at p1 p2 p3
  simp only [transform_cmyk_rgbview, transform_cmyk, hn]
  by_cases hz : a = 0 ∧ b2 = 0 ∧ c2 = 0
  · rw [if_pos hz]
    obtain ⟨z1, z2, z3⟩ := hz
    simp [cmyk_to_rgb, z1, z2, z3]
  · rw [if_neg hz]
    have hmax : 0 < max a (max b2 c2) := by
      rcases p1.lt_or_eq with h | h
      · exact lt_of_lt_of_le h (le_max_left _ _)
      · rcases p2.lt_or_eq with h2 | h2
        · exact lt_of_lt_of_le h2 (le_trans (le_max_left _ _) (le_max_right _ _))
        · rcases p3.lt_or_eq with h3 | h3
          · exact lt_of_lt_of_le h3
              (le_trans (le_max_right _ _) (le_max_right _ _))
          · exact absurd ⟨h.symm, h2.symm, h3.symm⟩ hz
    rw [if_pos (by linarith : 1 - max a (max b2 c2) < 1)]
    have hne : (1 : ℚ) - (1 - max a (max b2 c2)) ≠ 0 := by
      have : (1 : ℚ) - (1 - max a (max b2 c2)) = max a (max b2 c2) := by ring
      rw [this]; exact hmax.ne'
    simp only [cmyk_to_rgb, Prod.mk.injEq]
    refine ⟨?_, ?_, ?_⟩ <;> field_simp

/-- C4: for CMYK inputs in `[0,1]^4`, converting the CMYK mapper's output
back to RGB equals applying the RGB mapper to the RGB conversion of the
input — in fact exactly, hence within `1e-6` per component — and an
all-black intermediate RGB maps to CMYK `(0,0,0,1)`. -/
theorem cmyk_roundtrip (th : Theme)
    (h0r : 0 ≤ th.r) (h0g : 0 ≤ th.g) (h0b : 0 ≤ th.b)
    (c m y k : ℚ)
    (_hc0 : 0 ≤ c) (hc1 : c ≤ 1) (_hm0 : 0 ≤ m) (hm1 : m ≤ 1)
    (_hy0 : 0 ≤ y) (hy1 : y ≤ 1) (_hk0 : 0 ≤ k) (hk1 : k ≤ 1) :
    transform_cmyk_rgbview th c m y k =
      transform_rgb th ((1 - c) * (1 - k)) ((1 - m) * (1 - k))
        ((1 - y) * (1 - k)) ∧
    (|(transform_cmyk_rgbview th c m y k).1 -
        (transform_rgb th ((1 - c) * (1 - k)) ((1 - m) * (1 - k))
          ((1 - y) * (1 - k))).1| ≤ 1/1000000 ∧
     |(transform_cmyk_rgbview th c m y k).2.1 -
        (transform_rgb th ((1 - c) * (1 - k)) ((1 - m) * (1 - k))
          ((1 - y) * (1 - k))).2.1| ≤ 1/1000000 ∧
     |(transform_cmyk_rgbview th c m y k).2.2 -
        (transform_rgb th ((1 - c) * (1 - k)) ((1 - m) * (1 - k))
          ((1 - y) * (1 - k))).2.2| ≤ 1/1000000) ∧
    (transform_rgb th ((1 - c) * (1 - k)) ((1 - m) * (1 - k))
        ((1 - y) * (1 - k)) = (0, 0, 0) →
      transform_cmyk th c m y k = (0, 0, 0, 1)) := by
  obtain ⟨p1, p2, p3⟩ := transform_rgb_nonneg th h0r h0g h0b
    ((1 - c) * (1 - k)) ((1 - m) * (1 - k)) ((1 - y) * (1 - k))
    (mul_nonneg (by linarith) (by linarith))
    (mul_nonneg (by linarith) (by linarith))
    (mul_nonneg (by linarith) (by linarith))
  have heq := cmyk_view_eq th c m y k _ rfl p1 p2 p3
  refine ⟨heq, ⟨?_, ?_, ?_⟩, ?_⟩
  · rw [heq]; norm_num
  · rw [heq]; norm_num
  · rw [heq]; norm_num
  · intro h000
    simp only [transform_cmyk, h000]
    norm_num

/-- Witness for `rgb_output_in_unit_outside_mid_bands` at input `(1,1,1)`
(luminance `1 ≥ 0.6`) under the classic theme. -/
theorem rgb_output_in_unit_witness :
    (0 ≤ (transform_rgb classicTheme 1 1 1).1 ∧
      (transform_rgb classicTheme 1 1 1).1 ≤ 1) ∧
    (0 ≤ (transform_rgb classicTheme 1 1 1).2.1 ∧
      (transform_rgb classicTheme 1 1 1).2.1 ≤ 1) ∧
    (0 ≤ (transform_rgb classicTheme 1 1 1).2.2 ∧
      (transform_rgb classicTheme 1 1 1).2.2 ≤ 1) :=
  rgb_output_in_unit_outside_mid_bands classicTheme
    (by norm_num [classicTheme]) (by norm_num [classicTheme])
    (by norm_num [classicTheme]) (by norm_num [classicTheme])
    (by norm_num [classicTheme]) (by norm_num [classicTheme])
    1 1 1 (by norm_num) (by norm_num) (by norm_num) (by norm_num)
    (by norm_num) (by norm_num) (Or.inr (by norm_num))

/-- Witness for `cmyk_roundtrip` at CMYK input `(0,0,0,0)` under the claude
theme. -/
theorem cmyk_roundtrip_witness :
    transform_cmyk_rgbview claudeTheme 0 0 0 0 =
      transform_rgb claudeTheme ((1 - 0) * (1 - 0)) ((1 - 0) * (1 - 0))
        ((1 - 0) * (1 - 0)) ∧
    (|(transform_cmyk_rgbview claudeTheme 0 0 0 0).1 -
        (transform_rgb claudeTheme ((1 - 0) * (1 - 0)) ((1 - 0) * (1 - 0))
          ((1 - 0) * (1 - 0))).1| ≤ 1/1000000 ∧
     |(transform_cmyk_rgbview claudeTheme 0 0 0 0).2.1 -
        (transform_rgb claudeTheme ((1 - 0) * (1 - 0)) ((1 - 0) * (1 - 0))
          ((1 - 0) * (1 - 0))).2.1| ≤ 1/1000000 ∧
     |(transform_cmyk_rgbview claudeTheme 0 0 0 0).2.2 -
        (transform_rgb claudeTheme ((1 - 0) * (1 - 0)) ((1 - 0) * (1 - 0))
          ((1 - 0) * (1 - 0))).2.2| ≤ 1/1000000) ∧
    (transform_rgb claudeTheme ((1 - 0) * (1 - 0)) ((1 - 0) * (1 - 0))
        ((1 - 0) * (1 - 0)) = (0, 0, 0) →
      transform_cmyk claudeTheme 0 0 0 0 = (0, 0, 0, 1)) :=
  cmyk_roundtrip claudeTheme
    (by norm_num [claudeTheme]) (by norm_num [claudeTheme])
    (by norm_num [claudeTheme]) 0 0 0 0
    (by norm_num) (by norm_num) (by norm_num) (by norm_num)
    (by norm_num) (by norm_num) (by norm_num) (by norm_num)


/-- Concatenating the digit run and remainder of `takeDigits` recovers the
input. -/
lemma takeDigits_eq (l : List Char) :
    (takeDigits l).1 ++ (takeDigits l).2 = l := by
  induction l with
  | nil => rfl
  | cons c cs ih =>
    simp only [takeDigits]
    split_ifs with h
    · simpa using ih
    · simp

/-- Concatenating the space run and remainder of `takeSpaces` recovers the
input. -/
lemma takeSpaces_eq (l : List Char) :
    (takeSpaces l).1 ++ (takeSpaces l).2 = l := by
  induction l with
  | nil => rfl
  | cons c cs ih =>
    simp only [takeSpaces]
    split_ifs with h
    · simpa using ih
    · simp

/-- A successful match of the first operand sub-pattern splits the input as
matched span plus remainder. -/
lemma matchNumA_split (l : List Char) (q : ℚ) (rest : List Char)
    (h : matchNumA l = some (q, rest)) : ∃ tk, l = tk ++ rest := by
  have hd := takeDigits_eq l
  simp only [matchNumA] at h
  split at h
  case _ r2 heq =>
    have hd2 := takeDigits_eq r2
    split_ifs at h with h1 h2
    · obtain ⟨-, hrest⟩ : _ ∧ (takeDigits r2).2 = rest := by
        simpa using h
      refine ⟨(takeDigits l).1 ++ '.' :: (takeDigits r2).1, ?_⟩
      calc l = (takeDigits l).1 ++ (takeDigits l).2 := hd.symm
        _ = (takeDigits l).1 ++ ('.' :: r2) := by rw [heq]
        _ = (takeDigits l).1 ++
            ('.' :: ((takeDigits r2).1 ++ (takeDigits r2).2)) := by rw [hd2]
        _ = ((takeDigits l).1 ++ '.' :: (takeDigits r2).1) ++
            (takeDigits r2).2 := by simp
        _ = ((takeDigits l).1 ++ '.' :: (takeDigits r2).1) ++ rest := by
            rw [hrest]
    · obtain ⟨-, hrest⟩ : _ ∧ (takeDigits l).2 = rest := by
        simpa using h
      exact ⟨(takeDigits l).1, by rw [← hrest]; exact hd.symm⟩
  case _ heq2 =>
    split_ifs at h with h1
    · obtain ⟨-, hrest⟩ : _ ∧ (takeDigits l).2 = rest := by
        simpa using h
      exact ⟨(takeDigits l).1, by rw [← hrest]; exact hd.symm⟩

/-- A successful match of the second operand sub-pattern splits the input as
matched span plus remainder. -/
lemma matchNumB_split (l : List Char) (q : ℚ) (rest : List Char)
    (h : matchNumB l = some (q, rest)) : ∃ tk, l = tk ++ rest := by
  have hd := takeDigits_eq l
  simp only [matchNumB] at h
  split_ifs at h with h1
  · split at h
    case _ r2 heq =>
      have hd2 := takeDigits_eq r2
      obtain ⟨-, hrest⟩ : _ ∧ (takeDigits r2).2 = rest := by
        simpa using h
      refine ⟨(takeDigits l).1 ++ '.' :: (takeDigits r2).1, ?_⟩
      calc l = (takeDigits l).1 ++ (takeDigits l).2 := hd.symm
        _ = (takeDigits l).1 ++ ('.' :: r2) := by rw [heq]
        _ = (takeDigits l).1 ++
            ('.' :: ((takeDigits r2).1 ++ (takeDigits r2).2)) := by rw [hd2]
        _ = ((takeDigits l).1 ++ '.' :: (takeDigits r2).1) ++
            (takeDigits r2).2 := by simp
        _ = ((takeDigits l).1 ++ '.' :: (takeDigits r2).1) ++ rest := by
            rw [hrest]
    case _ heq2 =>
      obtain ⟨-, hrest⟩ : _ ∧ (takeDigits l).2 = rest := by
        simpa using h
      exact ⟨(takeDigits l).1, by rw [← hrest]; exact hd.symm⟩

/-- A successful whitespace match splits the input as matched span plus
remainder. -/
lemma matchWs_split (l : List Char) (rest : List Char)
    (h : matchWs l = some rest) : ∃ tk, l = tk ++ rest := by
  have hd := takeSpaces_eq l
  simp only [matchWs] at h
  split_ifs at h with h1
  · obtain hrest : (takeSpaces l).2 = rest := by simpa using h
    exact ⟨(takeSpaces l).1, by rw [← hrest]; exact hd.symm⟩

/-- The `rg`/`RG` pattern matcher consumes a nonempty matched span. -/
lemma matchRgbOp_consumes (c1 c2 : Char) (th : Theme) :
    Consumes (matchRgbOp c1 c2 th) := by
  intro l repl rest h
  simp only [matchRgbOp] at h
  split at h <;> try exact Option.noConfusion h
  case _ n1 r1 h1 =>
  split at h <;> try exact Option.noConfusion h
  case _ r2 h2 =>
  split at h <;> try exact Option.noConfusion h
  case _ n2 r3 h3 =>
  split at h <;> try exact Option.noConfusion h
  case _ r4 h4 =>
  split at h <;> try exact Option.noConfusion h
  case _ n3 r5 h5 =>
  split at h <;> try exact Option.noConfusion h
  case _ r6 h6 =>
  split at h <;> try exact Option.noConfusion h
  rename_i a b abrest
  split_ifs at h with h8
  obtain ⟨-, hrest⟩ : _ ∧ abrest = rest := by simpa using h
  obtain ⟨t1, ht1⟩ := matchNumA_split _ _ _ h1
  obtain ⟨t2, ht2⟩ := matchWs_split _ _ h2
  obtain ⟨t3, ht3⟩ := matchNumA_split _ _ _ h3
  obtain ⟨t4, ht4⟩ := matchWs_split _ _ h4
  obtain ⟨t5, ht5⟩ := matchNumA_split _ _ _ h5
  obtain ⟨t6, ht6⟩ := matchWs_split _ _ h6
  refine ⟨t1 ++ t2 ++ t3 ++ t4 ++ t5 ++ t6 ++ [a, b], by simp, ?_⟩
  rw [ht1, ht2, ht3, ht4, ht5, ht6, ← hrest]
  simp

/-- The `g`/`G` pattern matcher consumes a nonempty matched span. -/
lemma matchGrayOp_consumes (cg : Char) (th : Theme) :
    Consumes (matchGrayOp cg th) := by
  intro l repl rest h
  simp only [matchGrayOp] at h
  split at h <;> try exact Option.noConfusion h
  case _ n1 r1 h1 =>
  split at h <;> try exact Option.noConfusion h
  case _ r2 h2 =>
  split at h <;> try exact Option.noConfusion h
  rename_i a arest
  split_ifs at h with h4
  obtain ⟨-, hrest⟩ : _ ∧ arest = rest := by simpa using h
  obtain ⟨t1, ht1⟩ := matchNumB_split _ _ _ h1
  obtain ⟨t2, ht2⟩ := matchWs_split _ _ h2
  refine ⟨t1 ++ t2 ++ [a], by simp, ?_⟩
  rw [ht1, ht2, ← hrest]
  simp

/-- The `k`/`K` pattern matcher consumes a nonempty matched span. -/
lemma matchCmykOp_consumes (ck : Char) (th : Theme) :
    Consumes (matchCmykOp ck th) := by
  intro l repl rest h
  simp only [matchCmykOp] at h
  split at h <;> try exact Option.noConfusion h
  case _ n1 r1 h1 =>
  split at h <;> try exact Option.noConfusion h
  case _ r2 h2 =>
  split at h <;> try exact Option.noConfusion h
  case _ n2 r3 h3 =>
  split at h <;> try exact Option.noConfusion h
  case _ r4 h4 =>
  split at h <;> try exact Option.noConfusion h
  case _ n3 r5 h5 =>
  split at h <;> try exact Option.noConfusion h
  case _ r6 h6 =>
  split at h <;> try exact Option.noConfusion h
  case _ n4 r7 h7 =>
  split at h <;> try exact Option.noConfusion h
  case _ r8 h8 =>
  split at h <;> try exact Option.noConfusion h
  rename_i a arest
  split_ifs at h with h10
  obtain ⟨-, hrest⟩ : _ ∧ arest = rest := by simpa using h
  obtain ⟨t1, ht1⟩ := matchNumB_split _ _ _ h1
  obtain ⟨t2, ht2⟩ := matchWs_split _ _ h2
  obtain ⟨t3, ht3⟩ := matchNumB_split _ _ _ h3
  obtain ⟨t4, ht4⟩ := matchWs_split _ _ h4
  obtain ⟨t5, ht5⟩ := matchNumB_split _ _ _ h5
  obtain ⟨t6, ht6⟩ := matchWs_split _ _ h6
  obtain ⟨t7, ht7⟩ := matchNumB_split _ _ _ h7
  obtain ⟨t8, ht8⟩ := matchWs_split _ _ h8
  refine ⟨t1 ++ t2 ++ t3 ++ t4 ++ t5 ++ t6 ++ t7 ++ t8 ++ [a], by simp, ?_⟩
  rw [ht1, ht2, ht3, ht4, ht5, ht6, ht7, ht8, ← hrest]
  simp

/-- A `re.sub` scan decomposes its input into unmatched characters, copied
verbatim, and matched spans, each replaced. -/
lemma subst_decomp (m : List Char → Option (List Char × List Char))
    (hm : Consumes m) :
    ∀ fuel l, l.length ≤ fuel → Decomp m l (subst m fuel l) := by
  intro fuel
  induction fuel with
  | zero =>
    intro l hl
    have : l = [] := List.eq_nil_of_length_eq_zero (Nat.le_zero.mp hl)
    subst this
    exact Decomp.nil
  | succ fuel ih =>
    intro l hl
    cases l with
    | nil => exact Decomp.nil
    | cons c cs =>
      cases hmm : m (c :: cs) with
      | none =>
        simp only [subst, hmm]
        exact Decomp.copy c cs _ hmm (ih cs (by simpa using Nat.succ_le_succ_iff.mp (by simpa using hl)))
      | some pr =>
        obtain ⟨repl, rest⟩ := pr
        obtain ⟨tk, htk, hsplit⟩ := hm _ _ _ hmm
        simp only [subst, hmm]
        have hrl : rest.length ≤ fuel := by
          have hlen : (c :: cs).length = tk.length + rest.length := by
            rw [hsplit]; simp
          have htk1 : 1 ≤ tk.length := by
            cases tk with
            | nil => exact absurd rfl htk
            | cons a as => simp
          simp only [List.length_cons] at hl hlen
          omega
        rw [hsplit]
        exact Decomp.rew tk repl rest _ (hsplit ▸ hmm) htk (ih rest hrl)

/-- C3 amended: each of the six substitution passes changes only the spans
its regex matches: the output decomposes the input into single bytes at
which no match starts, copied through byte-for-byte (whitespace, comments
and any other unmatched text), and textually matched spans, each replaced by
the formatted replacement. The matches are purely textual, so spans inside
string literals or comments are rewritten like any other (see the
counterexample). -/
theorem rewrite_changes_only_matches (th : Theme)
    (m : List Char → Option (List Char × List Char)) (hm : m ∈ passes th)
    (l : List Char) : Decomp m l (applyPass m l) := by
  have hc : Consumes m := by
    simp only [passes, List.mem_cons, List.not_mem_nil, or_false] at hm
    rcases hm with h | h | h | h | h | h <;> rw [h]
    · exact matchRgbOp_consumes 'r' 'g' th
    · exact matchRgbOp_consumes 'R' 'G' th
    · exact matchGrayOp_consumes 'g' th
    · exact matchGrayOp_consumes 'G' th
    · exact matchCmykOp_consumes 'k' th
    · exact matchCmykOp_consumes 'K' th
  exact subst_decomp m hc l.length l le_rfl

/-- Witness for `rewrite_changes_only_matches`: the gray pass on a small
concrete stream. -/
theorem rewrite_changes_only_matches_witness :
    Decomp (matchGrayOp 'g' claudeTheme) "0 g (x)".data
      (applyPass (matchGrayOp 'g' claudeTheme) "0 g (x)".data) :=
  rewrite_changes_only_matches claudeTheme (matchGrayOp 'g' claudeTheme)
    (by simp [passes]) "0 g (x)".data

/-- C6 counterexample: in the stream `/DeviceRGB cs 1 1 1 sc` the active
color space is DeviceRGB and `sc` has three numeric operands, yet the
rewriter returns the stream unchanged, although the color mapper would send
the near-white operands `(1,1,1)` to `(0,0,0)` under the classic theme: the
claimed rewrite does not happen. -/
theorem sc_operands_not_rewritten :
    transformContentStr classicTheme "/DeviceRGB cs 1 1 1 sc" =
      "/DeviceRGB cs 1 1 1 sc" ∧
    transform_rgb classicTheme 1 1 1 = (0, 0, 0) ∧
    ((0 : ℚ) ≠ 1) := by
  refine ⟨by decide, by with_unfolding_all decide, by norm_num⟩

/-- An `ScSafe` matcher consumes a nonempty prefix. -/
lemma scSafe_consumes (m : List Char → Option (List Char × List Char))
    (h : ScSafe m) : Consumes m := by
  intro l repl rest hm
  obtain ⟨mtk, L, hsplit, -, -⟩ := h l repl rest hm
  exact ⟨mtk ++ [L], by simp, hsplit⟩

/-- Every character of the digit run taken by `takeDigits` is a digit. -/
lemma takeDigits_mem (l : List Char) :
    ∀ c ∈ (takeDigits l).1, c.isDigit = true := by
  induction l with
  | nil => simp [takeDigits]
  | cons d ds ih =>
    simp only [takeDigits]
    split_ifs with h
    · intro c hc
      rcases List.mem_cons.mp hc with rfl | hc
      · exact h
      · exact ih c hc
    · simp

/-- Every character of the run taken by `takeSpaces` is `\s` whitespace. -/
lemma takeSpaces_mem (l : List Char) :
    ∀ c ∈ (takeSpaces l).1, isPySpace c = true := by
  induction l with
  | nil => simp [takeSpaces]
  | cons d ds ih =>
    simp only [takeSpaces]
    split_ifs with h
    · intro c hc
      rcases List.mem_cons.mp hc with rfl | hc
      · exact h
      · exact ih c hc
    · simp

/-- The span matched by the first operand sub-pattern is digits and dots. -/
lemma matchNumA_chars (l : List Char) (q : ℚ) (rest : List Char)
    (h : matchNumA l = some (q, rest)) :
    ∃ tk, l = tk ++ rest ∧ ∀ c ∈ tk, c.isDigit = true ∨ c = '.' := by
  have hd := takeDigits_eq l
  have hml := takeDigits_mem l
  simp only [matchNumA] at h
  split at h
  case _ r2 heq =>
    have hd2 := takeDigits_eq r2
    have hm2 := takeDigits_mem r2
    split_ifs at h with h1 h2
    · obtain ⟨-, hrest⟩ : _ ∧ (takeDigits r2).2 = rest := by
        simpa using h
      refine ⟨(takeDigits l).1 ++ '.' :: (takeDigits r2).1, ?_, ?_⟩
      · calc l = (takeDigits l).1 ++ (takeDigits l).2 := hd.symm
          _ = (takeDigits l).1 ++ ('.' :: r2) := by rw [heq]
          _ = (takeDigits l).1 ++
              ('.' :: ((takeDigits r2).1 ++ (takeDigits r2).2)) := by rw [hd2]
          _ = ((takeDigits l).1 ++ '.' :: (takeDigits r2).1) ++
              (takeDigits r2).2 := by simp
          _ = ((takeDigits l).1 ++ '.' :: (takeDigits r2).1) ++ rest := by
              rw [hrest]
      · intro c hc
        rcases List.mem_append.mp hc with hc | hc
        · exact Or.inl (hml c hc)
        · rcases List.mem_cons.mp hc with rfl | hc
          · exact Or.inr rfl
          · exact Or.inl (hm2 c hc)
    · obtain ⟨-, hrest⟩ : _ ∧ (takeDigits l).2 = rest := by
        simpa using h
      exact ⟨(takeDigits l).1, by rw [← hrest]; exact hd.symm,
        fun c hc => Or.inl (hml c hc)⟩
  case _ heq2 =>
    split_ifs at h with h1
    · obtain ⟨-, hrest⟩ : _ ∧ (takeDigits l).2 = rest := by
        simpa using h
      exact ⟨(takeDigits l).1, by rw [← hrest]; exact hd.symm,
        fun c hc => Or.inl (hml c hc)⟩

/-- The span matched by the second operand sub-pattern is digits and
dots. -/
lemma matchNumB_chars (l : List Char) (q : ℚ) (rest : List Char)
    (h : matchNumB l = some (q, rest)) :
    ∃ tk, l = tk ++ rest ∧ ∀ c ∈ tk, c.isDigit = true ∨ c = '.' := by
  have hd := takeDigits_eq l
  have hml := takeDigits_mem l
  simp only [matchNumB] at h
  split_ifs at h with h1
  · split at h
    case _ r2 heq =>
      have hd2 := takeDigits_eq r2
      have hm2 := takeDigits_mem r2
      obtain ⟨-, hrest⟩ : _ ∧ (takeDigits r2).2 = rest := by
        simpa using h
      refine ⟨(takeDigits l).1 ++ '.' :: (takeDigits r2).1, ?_, ?_⟩
      · calc l = (takeDigits l).1 ++ (takeDigits l).2 := hd.symm
          _ = (takeDigits l).1 ++ ('.' :: r2) := by rw [heq]
          _ = (takeDigits l).1 ++
              ('.' :: ((takeDigits r2).1 ++ (takeDigits r2).2)) := by rw [hd2]
          _ = ((takeDigits l).1 ++ '.' :: (takeDigits r2).1) ++
              (takeDigits r2).2 := by simp
          _ = ((takeDigits l).1 ++ '.' :: (takeDigits r2).1) ++ rest := by
              rw [hrest]
      · intro c hc
        rcases List.mem_append.mp hc with hc | hc
        · exact Or.inl (hml c hc)
        · rcases List.mem_cons.mp hc with rfl | hc
          · exact Or.inr rfl
          · exact Or.inl (hm2 c hc)
    case _ heq2 =>
      obtain ⟨-, hrest⟩ : _ ∧ (takeDigits l).2 = rest := by
        simpa using h
      exact ⟨(takeDigits l).1, by rw [← hrest]; exact hd.symm,
        fun c hc => Or.inl (hml c hc)⟩

/-- The span matched by `\s+` is whitespace. -/
lemma matchWs_chars (l : List Char) (rest : List Char)
    (h : matchWs l = some rest) :
    ∃ tk, l = tk ++ rest ∧ ∀ c ∈ tk, isPySpace c = true := by
  have hd := takeSpaces_eq l
  have hml := takeSpaces_mem l
  simp only [matchWs] at h
  split_ifs at h with h1
  · obtain hrest : (takeSpaces l).2 = rest := by simpa using h
    exact ⟨(takeSpaces l).1, by rw [← hrest]; exact hd.symm, hml⟩

/-- A digit is a span byte. -/
lemma spanChar_digit (c : Char) (h : c.isDigit = true) : SpanChar c = true := by
  simp [SpanChar, OperandChar, h]

/-- A whitespace byte is a span byte. -/
lemma spanChar_space (c : Char) (h : isPySpace c = true) :
    SpanChar c = true := by
  simp [SpanChar, OperandChar, h]

/-- A digit or dot is a span byte. -/
lemma spanChar_numA (c : Char) (h : c.isDigit = true ∨ c = '.') :
    SpanChar c = true := by
  rcases h with h | rfl
  · exact spanChar_digit c h
  · decide

/-- The `rg`/`RG` matcher is `ScSafe`. -/
lemma matchRgbOp_scSafe (c1 c2 : Char) (th : Theme)
    (hc1 : c1 = 'r' ∨ c1 = 'R') (hc2 : c2 = 'g' ∨ c2 = 'G') :
    ScSafe (matchRgbOp c1 c2 th) := by
  intro l repl rest h
  simp only [matchRgbOp] at h
  split at h <;> try exact Option.noConfusion h
  case _ n1 r1 h1 =>
  split at h <;> try exact Option.noConfusion h
  case _ r2 h2 =>
  split at h <;> try exact Option.noConfusion h
  case _ n2 r3 h3 =>
  split at h <;> try exact Option.noConfusion h
  case _ r4 h4 =>
  split at h <;> try exact Option.noConfusion h
  case _ n3 r5 h5 =>
  split at h <;> try exact Option.noConfusion h
  case _ r6 h6 =>
  split at h <;> try exact Option.noConfusion h
  rename_i a b abrest
  split_ifs at h with h8
  obtain ⟨-, hrest⟩ : _ ∧ abrest = rest := by simpa using h
  obtain ⟨t1, ht1, hm1⟩ := matchNumA_chars _ _ _ h1
  obtain ⟨t2, ht2, hm2⟩ := matchWs_chars _ _ h2
  obtain ⟨t3, ht3, hm3⟩ := matchNumA_chars _ _ _ h3
  obtain ⟨t4, ht4, hm4⟩ := matchWs_chars _ _ h4
  obtain ⟨t5, ht5, hm5⟩ := matchNumA_chars _ _ _ h5
  obtain ⟨t6, ht6, hm6⟩ := matchWs_chars _ _ h6
  refine ⟨t1 ++ t2 ++ t3 ++ t4 ++ t5 ++ t6 ++ [a], b, ?_, ?_, ?_⟩
  · rw [ht1, ht2, ht3, ht4, ht5, ht6, ← hrest]
    simp
  · intro c hc
    simp only [List.mem_append, List.mem_singleton] at hc
    rcases hc with (((((hc | hc) | hc) | hc) | hc) | hc) | rfl
    · exact spanChar_numA c (hm1 c hc)
    · exact spanChar_space c (hm2 c hc)
    · exact spanChar_numA c (hm3 c hc)
    · exact spanChar_space c (hm4 c hc)
    · exact spanChar_numA c (hm5 c hc)
    · exact spanChar_space c (hm6 c hc)
    · rw [h8.1]
      rcases hc1 with rfl | rfl <;> decide
  · rw [h8.2]
    rcases hc2 with rfl | rfl
    · exact Or.inl rfl
    · exact Or.inr (Or.inl rfl)

/-- The `g`/`G` matcher is `ScSafe`. -/
lemma matchGrayOp_scSafe (cg : Char) (th : Theme)
    (hcg : cg = 'g' ∨ cg = 'G') : ScSafe (matchGrayOp cg th) := by
  intro l repl rest h
  simp only [matchGrayOp] at h
  split at h <;> try exact Option.noConfusion h
  case _ n1 r1 h1 =>
  split at h <;> try exact Option.noConfusion h
  case _ r2 h2 =>
  split at h <;> try exact Option.noConfusion h
  rename_i a arest
  split_ifs at h with h4
  obtain ⟨-, hrest⟩ : _ ∧ arest = rest := by simpa using h
  obtain ⟨t1, ht1, hm1⟩ := matchNumB_chars _ _ _ h1
  obtain ⟨t2, ht2, hm2⟩ := matchWs_chars _ _ h2
  refine ⟨t1 ++ t2, a, ?_, ?_, ?_⟩
  · rw [ht1, ht2, ← hrest]
    simp
  · intro c hc
    rcases List.mem_append.mp hc with hc | hc
    · exact spanChar_numA c (hm1 c hc)
    · exact spanChar_space c (hm2 c hc)
  · rw [h4.1]
    rcases hcg with rfl | rfl
    · exact Or.inl rfl
    · exact Or.inr (Or.inl rfl)

/-- The `k`/`K` matcher is `ScSafe`. -/
lemma matchCmykOp_scSafe (ck : Char) (th : Theme)
    (hck : ck = 'k' ∨ ck = 'K') : ScSafe (matchCmykOp ck th) := by
  intro l repl rest h
  simp only [matchCmykOp] at h
  split at h <;> try exact Option.noConfusion h
  case _ n1 r1 h1 =>
  split at h <;> try exact Option.noConfusion h
  case _ r2 h2 =>
  split at h <;> try exact Option.noConfusion h
  case _ n2 r3 h3 =>
  split at h <;> try exact Option.noConfusion h
  case _ r4 h4 =>
  split at h <;> try exact Option.noConfusion h
  case _ n3 r5 h5 =>
  split at h <;> try exact Option.noConfusion h
  case _ r6 h6 =>
  split at h <;> try exact Option.noConfusion h
  case _ n4 r7 h7 =>
  split at h <;> try exact Option.noConfusion h
  case _ r8 h8 =>
  split at h <;> try exact Option.noConfusion h
  rename_i a arest
  split_ifs at h with h10
  obtain ⟨-, hrest⟩ : _ ∧ arest = rest := by simpa using h
  obtain ⟨t1, ht1, hm1⟩ := matchNumB_chars _ _ _ h1
  obtain ⟨t2, ht2, hm2⟩ := matchWs_chars _ _ h2
  obtain ⟨t3, ht3, hm3⟩ := matchNumB_chars _ _ _ h3
  obtain ⟨t4, ht4, hm4⟩ := matchWs_chars _ _ h4
  obtain ⟨t5, ht5, hm5⟩ := matchNumB_chars _ _ _ h5
  obtain ⟨t6, ht6, hm6⟩ := matchWs_chars _ _ h6
  obtain ⟨t7, ht7, hm7⟩ := matchNumB_chars _ _ _ h7
  obtain ⟨t8, ht8, hm8⟩ := matchWs_chars _ _ h8
  refine ⟨t1 ++ t2 ++ t3 ++ t4 ++ t5 ++ t6 ++ t7 ++ t8, a, ?_, ?_, ?_⟩
  · rw [ht1, ht2, ht3, ht4, ht5, ht6, ht7, ht8, ← hrest]
    simp
  · intro c hc
    simp only [List.mem_append] at hc
    rcases hc with ((((((hc | hc) | hc) | hc) | hc) | hc) | hc) | hc
    · exact spanChar_numA c (hm1 c hc)
    · exact spanChar_space c (hm2 c hc)
    · exact spanChar_numA c (hm3 c hc)
    · exact spanChar_space c (hm4 c hc)
    · exact spanChar_numA c (hm5 c hc)
    · exact spanChar_space c (hm6 c hc)
    · exact spanChar_numA c (hm7 c hc)
    · exact spanChar_space c (hm8 c hc)
  · rw [h10.1]
    rcases hck with rfl | rfl
    · exact Or.inr (Or.inr (Or.inl rfl))
    · exact Or.inr (Or.inr (Or.inr rfl))

/-- No `sc`-family letter is a span byte. -/
lemma scLetter_not_span (s : Char) (hs : ScLetter s = true) :
    SpanChar s = false := by
  simp only [ScLetter, Bool.or_eq_true, decide_eq_true_eq] at hs
  rcases hs with ((((rfl | rfl) | rfl) | rfl) | rfl) | rfl <;> decide

/-- No pattern-final letter is an operand byte. -/
lemma opLetter_not_operand (L : Char)
    (hL : L = 'g' ∨ L = 'G' ∨ L = 'k' ∨ L = 'K') :
    OperandChar L = false := by
  rcases hL with rfl | rfl | rfl | rfl <;> decide

/-- A matched span (span bytes ending in a pattern letter) can never start
at or inside a protected region: an operand run followed by an `sc`-family
letter. -/
lemma spanNotAtProtected (s : Char) (v : List Char)
    (hs : ScLetter s = true) :
    ∀ w mtk rest : List Char, ∀ L : Char,
    (mtk ++ [L]) ++ rest = w ++ s :: v →
    (∀ c ∈ mtk, SpanChar c = true) →
    (L = 'g' ∨ L = 'G' ∨ L = 'k' ∨ L = 'K') →
    (∀ c ∈ w, OperandChar c = true) → False := by
  intro w
  induction w with
  | nil =>
    intro mtk rest L heq hmtk hL hw
    cases mtk with
    | nil =>
      simp only [List.nil_append, List.cons_append, List.cons.injEq] at heq
      obtain ⟨rfl, -⟩ := heq
      rcases hL with rfl | rfl | rfl | rfl <;> exact absurd hs (by decide)
    | cons c mtk2 =>
      simp only [List.cons_append, List.cons.injEq] at heq
      obtain ⟨rfl, -⟩ := heq
      have h1 := hmtk s (by simp)
      have h2 := scLetter_not_span s hs
      rw [h1] at h2
      exact Bool.noConfusion h2
  | cons d w2 ih =>
    intro mtk rest L heq hmtk hL hw
    cases mtk with
    | nil =>
      simp only [List.nil_append, List.cons_append, List.cons.injEq] at heq
      obtain ⟨rfl, -⟩ := heq
      have h1 := hw L (by simp)
      have h2 := opLetter_not_operand L hL
      rw [h1] at h2
      exact Bool.noConfusion h2
    | cons c mtk2 =>
      simp only [List.cons_append, List.cons.injEq] at heq
      obtain ⟨rfl, heq2⟩ := heq
      exact ih mtk2 rest L (by simpa using heq2)
        (fun e he => hmtk e (List.mem_cons_of_mem _ he)) hL
        (fun e he => hw e (List.mem_cons_of_mem _ he))

/-- A matched span at the head of `u ++ w ++ s :: v`, with `w` an operand
run and `s` an `sc`-family letter, lies entirely within `u`. -/
lemma span_within (s : Char) (v w : List Char)
    (hs : ScLetter s = true) (hw : ∀ c ∈ w, OperandChar c = true) :
    ∀ u mtk rest : List Char, ∀ L : Char,
    (mtk ++ [L]) ++ rest = u ++ w ++ s :: v →
    (∀ c ∈ mtk, SpanChar c = true) →
    (L = 'g' ∨ L = 'G' ∨ L = 'k' ∨ L = 'K') →
    ∃ u2, u = (mtk ++ [L]) ++ u2 ∧ rest = u2 ++ w ++ s :: v := by
  intro u
  induction u with
  | nil =>
    intro mtk rest L heq hmtk hL
    exact absurd (spanNotAtProtected s v hs w mtk rest L (by simpa using heq)
      hmtk hL hw) (not_false)
  | cons a u2 ih =>
    intro mtk rest L heq hmtk hL
    cases mtk with
    | nil =>
      simp only [List.nil_append, List.cons_append, List.cons.injEq] at heq
      obtain ⟨rfl, heq2⟩ := heq
      exact ⟨u2, by simp, by simpa using heq2⟩
    | cons c mtk2 =>
      simp only [List.cons_append, List.cons.injEq] at heq
      obtain ⟨rfl, heq2⟩ := heq
      obtain ⟨u3, hu3, hrest⟩ := ih mtk2 rest L (by simpa using heq2)
        (fun e he => hmtk e (List.mem_cons_of_mem _ he)) hL
      exact ⟨u3, by simp [hu3], hrest⟩

/-- In a pass decomposition of `w ++ s :: v` (operand run `w`, `sc`-family
letter `s`), the whole protected region is copied verbatim at the head, and
the tail `v` is decomposed independently. -/
lemma decomp_protected_nil (m : List Char → Option (List Char × List Char))
    (hsafe : ScSafe m) (s : Char) (v : List Char) (hs : ScLetter s = true) :
    ∀ l out, Decomp m l out → ∀ w, l = w ++ s :: v →
    (∀ c ∈ w, OperandChar c = true) →
    ∃ out2, out = w ++ s :: out2 ∧ Decomp m v out2 := by
  intro l out hD
  induction hD with
  | nil =>
    intro w heq hw
    exact absurd heq.symm (by simp)
  | copy c l0 out0 hnone hsub ih =>
    intro w heq hw
    cases w with
    | nil =>
      simp only [List.nil_append, List.cons.injEq] at heq
      obtain ⟨rfl, rfl⟩ := heq
      exact ⟨out0, rfl, hsub⟩
    | cons d w2 =>
      simp only [List.cons_append, List.cons.injEq] at heq
      obtain ⟨rfl, heq2⟩ := heq
      obtain ⟨o2, ho, hd2⟩ := ih w2 heq2
        (fun e he => hw e (List.mem_cons_of_mem _ he))
      exact ⟨o2, by simp [ho], hd2⟩
  | rew mtk repl rest out0 hm hne hsub ih =>
    intro w heq hw
    obtain ⟨mtk2, L, hsplit, hchars, hL⟩ := hsafe _ _ _ hm
    have hmtk : mtk = mtk2 ++ [L] := List.append_cancel_right hsplit
    rw [hmtk] at heq
    exact absurd (spanNotAtProtected s v hs w mtk2 rest L heq hchars hL hw)
      not_false

/-- In any pass decomposition, a protected region (operand run followed by
an `sc`-family letter) is emitted verbatim, and the stream after it is
decomposed independently. -/
lemma decomp_protected (m : List Char → Option (List Char × List Char))
    (hsafe : ScSafe m) (s : Char) (v : List Char) (hs : ScLetter s = true) :
    ∀ l out, Decomp m l out → ∀ u w, l = u ++ w ++ s :: v →
    (∀ c ∈ w, OperandChar c = true) →
    ∃ out1 out2, out = out1 ++ w ++ s :: out2 ∧ Decomp m v out2 := by
  intro l out hD
  induction hD with
  | nil =>
    intro u w heq hw
    exact absurd heq.symm (by simp)
  | copy c l0 out0 hnone hsub ih =>
    intro u w heq hw
    cases u with
    | nil =>
      obtain ⟨o2, ho, hd2⟩ := decomp_protected_nil m hsafe s v hs _ _
        (Decomp.copy c l0 out0 hnone hsub) w (by simpa using heq) hw
      exact ⟨[], o2, by simp [ho], hd2⟩
    | cons a u2 =>
      simp only [List.cons_append, List.cons.injEq] at heq
      obtain ⟨rfl, heq2⟩ := heq
      obtain ⟨o1, o2, ho, hd2⟩ := ih u2 w heq2 hw
      exact ⟨c :: o1, o2, by simp [ho], hd2⟩
  | rew mtk repl rest out0 hm hne hsub ih =>
    intro u w heq hw
    cases u with
    | nil =>
      obtain ⟨o2, ho, hd2⟩ := decomp_protected_nil m hsafe s v hs _ _
        (Decomp.rew mtk repl rest out0 hm hne hsub) w (by simpa using heq) hw
      exact ⟨[], o2, by simp [ho], hd2⟩
    | cons a u2 =>
      obtain ⟨mtk2, L, hsplit, hchars, hL⟩ := hsafe _ _ _ hm
      have hmtk : mtk = mtk2 ++ [L] := List.append_cancel_right hsplit
      rw [hmtk] at heq
      obtain ⟨u3, hu, hrest⟩ := span_within s v w hs hw (a :: u2) mtk2 rest L
        (by simpa using heq) hchars hL
      obtain ⟨o1, o2, ho, hd2⟩ := ih u3 w hrest hw
      exact ⟨repl ++ o1, o2, by simp [ho], hd2⟩

/-- C6 amended: the rewriter has no `sc`/`SC` handling at all. Universally:
for every theme, every one of the six substitution passes, and every input
stream, each occurrence of an `sc`-family letter (`s`, `S`, `c`, `C`, `n`,
`N` — covering `sc`, `SC`, `scn`, `SCN`), together with any adjacent run of
numeric-operand bytes before it (digits, dots, whitespace), passes through
the pass byte-for-byte: the output is a prefix followed by that operand run
and letter unchanged, with the rest of the stream processed independently.
So `sc`/`SC` operators and their operands are never rewritten, whatever the
active color space. -/
theorem sc_pass_through (th : Theme)
    (m : List Char → Option (List Char × List Char)) (hm : m ∈ passes th)
    (u w v : List Char) (s : Char)
    (hw : ∀ c ∈ w, OperandChar c = true) (hs : ScLetter s = true) :
    ∃ out1 out2,
      applyPass m (u ++ w ++ s :: v) = out1 ++ w ++ s :: out2 ∧
      Decomp m v out2 := by
  have hsafe : ScSafe m := by
    simp only [passes, List.mem_cons, List.not_mem_nil, or_false] at hm
    rcases hm with rfl | rfl | rfl | rfl | rfl | rfl
    · exact matchRgbOp_scSafe 'r' 'g' th (Or.inl rfl) (Or.inl rfl)
    · exact matchRgbOp_scSafe 'R' 'G' th (Or.inr rfl) (Or.inr rfl)
    · exact matchGrayOp_scSafe 'g' th (Or.inl rfl)
    · exact matchGrayOp_scSafe 'G' th (Or.inr rfl)
    · exact matchCmykOp_scSafe 'k' th (Or.inl rfl)
    · exact matchCmykOp_scSafe 'K' th (Or.inr rfl)
  have hD : Decomp m (u ++ w ++ s :: v)
      (applyPass m (u ++ w ++ s :: v)) :=
    subst_decomp m (scSafe_consumes m hsafe) _ _ le_rfl
  exact decomp_protected m hsafe s v hs _ _ hD u w rfl hw

/-- Witness for `sc_pass_through`: the gray pass of the claude theme on the
stream `0.2 g 1 1 1 sc Q`, whose `1 1 1 ` operand run and `s` survive. -/
theorem sc_pass_through_witness :
    (∀ c ∈ ("1 1 1 ".data), OperandChar c = true) ∧ ScLetter 's' = true ∧
    ∃ out1 out2,
      applyPass (matchGrayOp 'g' claudeTheme)
          ("0.2 g ".data ++ "1 1 1 ".data ++ 's' :: "c Q".data) =
        out1 ++ "1 1 1 ".data ++ 's' :: out2 ∧
      Decomp (matchGrayOp 'g' claudeTheme) ("c Q".data) out2 :=
  ⟨by decide, by decide,
    sc_pass_through claudeTheme (matchGrayOp 'g' claudeTheme)
      (by simp [passes]) "0.2 g ".data "1 1 1 ".data "c Q".data 's'
      (by decide) (by decide)⟩

/-- C3 counterexample: the input `(a 1 1 1 rg b)` is a single PDF string
literal token, so under the claim every one of its bytes lies outside any
color operator's operand run and must be preserved; the regex rewriter
nevertheless rewrites the span `1 1 1 rg` inside it. -/
theorem string_literal_rewritten :
    transformContentStr classicTheme "(a 1 1 1 rg b)" =
      "(a 0.0000 0.0000 0.0000 rg b)" ∧
    transformContentStr classicTheme "(a 1 1 1 rg b)" ≠ "(a 1 1 1 rg b)" := by
  constructor <;> with_unfolding_all decide

/-- C10: a page with a media box but no `/Contents` entry still gets the
theme background underlay appended, is returned without any other change
(`_process_page` returns right after the underlay step), and is not a
processing error: the body succeeds with `.ok`. -/
theorem no_contents_page (th : Theme) (rw : String → Except String String)
    (p : Page) (x0 y0 x1 y1 : ℚ)
    (hmb : p.mediaBox = some (x0, y0, x1, y1))
    (hc : p.contents = none) :
    processPageBody th rw p = .ok
      { p with underlay := p.underlay ++
          [((th.r / 255, th.g / 255, th.b / 255), x1 - x0, y1 - y0)] } ∧
    processPage th rw p =
      { p with underlay := p.underlay ++
          [((th.r / 255, th.g / 255, th.b / 255), x1 - x0, y1 - y0)] } ∧
    (processPage th rw p).contents = none := by
  have hbody : processPageBody th rw p = .ok
      { p with underlay := p.underlay ++
          [((th.r / 255, th.g / 255, th.b / 255), x1 - x0, y1 - y0)] } := by
    simp only [processPageBody, hmb, hc]
  refine ⟨hbody, ?_, ?_⟩
  · simp only [processPage, hbody]
  · simp only [processPage, hbody, hc]

/-- Witness for `no_contents_page` on a concrete contents-less page. -/
theorem no_contents_page_witness :
    processPage claudeTheme Except.ok ⟨some (0, 0, 10, 20), none, []⟩ =
      ⟨some (0, 0, 10, 20), none, [((42/255, 37/255, 34/255), 10 - 0, 20 - 0)]⟩ := by
  have h := no_contents_page claudeTheme Except.ok
    ⟨some (0, 0, 10, 20), none, []⟩ 0 0 10 20 rfl rfl
  rw [h.2.1]
  rfl

/-- C7: if rewriting one page's content stream raises, no other page is
affected: `process_pdf` still maps `_process_page` over every page (length
preserved, every entry is that page's processed form), and the failing page
is still emitted, with its original content streams and the background
fragment appended by `add_underlay` before the rewrite was attempted. -/
theorem page_failure_isolated (th : Theme) (rw : String → Except String String)
    (pages : List Page) (p : Page) (hp : p ∈ pages)
    (x0 y0 x1 y1 : ℚ) (hmb : p.mediaBox = some (x0, y0, x1, y1))
    (streams : List String) (hc : p.contents = some streams)
    (e : String)
    (herr : rw (String.intercalate "\n" streams) = .error e) :
    (processPdf th rw pages).length = pages.length ∧
    (∀ j (hj : j < (processPdf th rw pages).length) (hj2 : j < pages.length),
      (processPdf th rw pages).get ⟨j, hj⟩ =
        processPage th rw (pages.get ⟨j, hj2⟩)) ∧
    processPage th rw p =
      { p with underlay := p.underlay ++
          [((th.r / 255, th.g / 255, th.b / 255), x1 - x0, y1 - y0)] } ∧
    (processPage th rw p).contents = some streams ∧
    processPage th rw p ∈ processPdf th rw pages := by
  have hfail : processPage th rw p =
      { p with underlay := p.underlay ++
          [((th.r / 255, th.g / 255, th.b / 255), x1 - x0, y1 - y0)] } := by
    simp only [processPage, processPageBody, hmb, hc, herr]
  refine ⟨by simp [processPdf], ?_, hfail, ?_, ?_⟩
  · intro j hj hj2
    simp [processPdf]
  · rw [hfail, hc]
  · exact List.mem_map_of_mem _ hp

/-- Witness for `page_failure_isolated`: a two-page document whose second
page's rewrite raises. -/
theorem page_failure_isolated_witness :
    (processPdf claudeTheme
        (fun s => if s = "X" then Except.error "boom" else Except.ok s)
        [⟨some (0, 0, 5, 5), none, []⟩,
         ⟨some (0, 0, 10, 20), some ["X"], []⟩]).length = 2 ∧
    processPage claudeTheme
        (fun s => if s = "X" then Except.error "boom" else Except.ok s)
        ⟨some (0, 0, 10, 20), some ["X"], []⟩ =
      ⟨some (0, 0, 10, 20), some ["X"],
        [((42/255, 37/255, 34/255), 10 - 0, 20 - 0)]⟩ ∧
    (processPage claudeTheme
        (fun s => if s = "X" then Except.error "boom" else Except.ok s)
        ⟨some (0, 0, 10, 20), some ["X"], []⟩).contents = some ["X"] := by
  have h := page_failure_isolated claudeTheme
    (fun s => if s = "X" then Except.error "boom" else Except.ok s)
    [⟨some (0, 0, 5, 5), none, []⟩, ⟨some (0, 0, 10, 20), some ["X"], []⟩]
    ⟨some (0, 0, 10, 20), some ["X"], []⟩ (by simp)
    0 0 10 20 rfl ["X"] rfl "boom" (by with_unfolding_all rfl)
  exact ⟨by simpa using h.1, by rw [h.2.2.1]; rfl, h.2.2.2.1⟩


/-- Evaluation of Python float `%`: when `n*y ≤ x < (n+1)*y` with `y > 0`,
`x % y = x - y*n`. -/
lemma pmod_eq (x y : ℚ) (n : ℤ) (hy : 0 < y) (h1 : n * y ≤ x)
    (h2 : x < (n + 1) * y) : pmod x y = x - y * n := by
  have hfl : ⌊x / y⌋ = n := by
    rw [Int.floor_eq_iff]
    constructor
    · rw [le_div_iff₀ hy]
      linarith
    · rw [div_lt_iff₀ hy]
      linarith
  unfold pmod
  rw [hfl]

/-- Closed form of `_hsv_to_rgb` on the first sextant `0 ≤ H < 60`. -/
lemma hsv_sector0 (H s v : ℚ) (h0 : 0 ≤ H) (h1 : H < 60) :
    hsv_to_rgb (H / 360) s v =
      (v, v * s * (H / 60) + (v - v * s), v - v * s) := by
  have hh : H / 360 * 360 = H := div_mul_cancel₀ _ (by norm_num)
  have ht1 : H / 60 < 1 := by
    rw [div_lt_one (by norm_num : (0:ℚ) < 60)]; linarith
  have ht0 : 0 ≤ H / 60 := by positivity
  have hp : pmod (H / 60) 2 = H / 60 - 2 * 0 :=
    pmod_eq _ _ 0 (by norm_num) (by linarith) (by push_cast; linarith)
  simp only [hsv_to_rgb]
  rw [hh, hp, if_pos ⟨h0, h1⟩, abs_of_nonpos (by linarith)]
  simp only [Prod.mk.injEq]
  refine ⟨by ring, by ring, by ring⟩

/-- Closed form of `_hsv_to_rgb` on the sextant `60 ≤ H < 120`. -/
lemma hsv_sector1 (H s v : ℚ) (h0 : 60 ≤ H) (h1 : H < 120) :
    hsv_to_rgb (H / 360) s v =
      (v * s * (2 - H / 60) + (v - v * s), v, v - v * s) := by
  have hh : H / 360 * 360 = H := div_mul_cancel₀ _ (by norm_num)
  have ha : 1 ≤ H / 60 := by
    rw [le_div_iff₀ (by norm_num : (0:ℚ) < 60)]; linarith
  have hb : H / 60 < 2 := by
    rw [div_lt_iff₀ (by norm_num : (0:ℚ) < 60)]; linarith
  have hp : pmod (H / 60) 2 = H / 60 - 2 * 0 :=
    pmod_eq _ _ 0 (by norm_num) (by linarith) (by push_cast; linarith)
  simp only [hsv_to_rgb]
  rw [hh, hp, if_neg (by rintro ⟨-, hc⟩; linarith),
    if_pos ⟨h0, h1⟩, abs_of_nonneg (by linarith)]
  simp only [Prod.mk.injEq]
  refine ⟨by ring, by ring, by ring⟩

/-- Closed form of `_hsv_to_rgb` on the sextant `120 ≤ H < 180`. -/
lemma hsv_sector2 (H s v : ℚ) (h0 : 120 ≤ H) (h1 : H < 180) :
    hsv_to_rgb (H / 360) s v =
      (v - v * s, v, v * s * (H / 60 - 2) + (v - v * s)) := by
  have hh : H / 360 * 360 = H := div_mul_cancel₀ _ (by norm_num)
  have ha : 2 ≤ H / 60 := by
    rw [le_div_iff₀ (by norm_num : (0:ℚ) < 60)]; linarith
  have hb : H / 60 < 3 := by
    rw [div_lt_iff₀ (by norm_num : (0:ℚ) < 60)]; linarith
  have hp : pmod (H / 60) 2 = H / 60 - 2 * 1 :=
    pmod_eq _ _ 1 (by norm_num) (by push_cast; linarith)
      (by push_cast; linarith)
  simp only [hsv_to_rgb]
  rw [hh, hp, if_neg (by rintro ⟨-, hc⟩; linarith),
    if_neg (by rintro ⟨-, hc⟩; linarith),
    if_pos ⟨h0, h1⟩, abs_of_nonpos (by linarith)]
  simp only [Prod.mk.injEq]
  refine ⟨by ring, by ring, by ring⟩

/-- Closed form of `_hsv_to_rgb` on the sextant `180 ≤ H < 240`. -/
lemma hsv_sector3 (H s v : ℚ) (h0 : 180 ≤ H) (h1 : H < 240) :
    hsv_to_rgb (H / 360) s v =
      (v - v * s, v * s * (4 - H / 60) + (v - v * s), v) := by
  have hh : H / 360 * 360 = H := div_mul_cancel₀ _ (by norm_num)
  have ha : 3 ≤ H / 60 := by
    rw [le_div_iff₀ (by norm_num : (0:ℚ) < 60)]; linarith
  have hb : H / 60 < 4 := by
    rw [div_lt_iff₀ (by norm_num : (0:ℚ) < 60)]; linarith
  have hp : pmod (H / 60) 2 = H / 60 - 2 * 1 :=
    pmod_eq _ _ 1 (by norm_num) (by push_cast; linarith)
      (by push_cast; linarith)
  simp only [hsv_to_rgb]
  rw [hh, hp, if_neg (by rintro ⟨-, hc⟩; linarith),
    if_neg (by rintro ⟨-, hc⟩; linarith),
    if_neg (by rintro ⟨-, hc⟩; linarith),
    if_pos ⟨h0, h1⟩, abs_of_nonneg (by linarith)]
  simp only [Prod.mk.injEq]
  refine ⟨by ring, by ring, by ring⟩

/-- Closed form of `_hsv_to_rgb` on the sextant `240 ≤ H < 300`. -/
lemma hsv_sector4 (H s v : ℚ) (h0 : 240 ≤ H) (h1 : H < 300) :
    hsv_to_rgb (H / 360) s v =
      (v * s * (H / 60 - 4) + (v - v * s), v - v * s, v) := by
  have hh : H / 360 * 360 = H := div_mul_cancel₀ _ (by norm_num)
  have ha : 4 ≤ H / 60 := by
    rw [le_div_iff₀ (by norm_num : (0:ℚ) < 60)]; linarith
  have hb : H / 60 < 5 := by
    rw [div_lt_iff₀ (by norm_num : (0:ℚ) < 60)]; linarith
  have hp : pmod (H / 60) 2 = H / 60 - 2 * 2 :=
    pmod_eq _ _ 2 (by norm_num) (by push_cast; linarith)
      (by push_cast; linarith)
  simp only [hsv_to_rgb]
  rw [hh, hp, if_neg (by rintro ⟨-, hc⟩; linarith),
    if_neg (by rintro ⟨-, hc⟩; linarith),
    if_neg (by rintro ⟨-, hc⟩; linarith),
    if_neg (by rintro ⟨-, hc⟩; linarith),
    if_pos ⟨h0, h1⟩, abs_of_nonpos (by linarith)]
  simp only [Prod.mk.injEq]
  refine ⟨by ring, by ring, by ring⟩

/-- Closed form of `_hsv_to_rgb` on the sextant `300 ≤ H < 360`. -/
lemma hsv_sector5 (H s v : ℚ) (h0 : 300 ≤ H) (h1 : H < 360) :
    hsv_to_rgb (H / 360) s v =
      (v, v - v * s, v * s * (6 - H / 60) + (v - v * s)) := by
  have hh : H / 360 * 360 = H := div_mul_cancel₀ _ (by norm_num)
  have ha : 5 ≤ H / 60 := by
    rw [le_div_iff₀ (by norm_num : (0:ℚ) < 60)]; linarith
  have hb : H / 60 < 6 := by
    rw [div_lt_iff₀ (by norm_num : (0:ℚ) < 60)]; linarith
  have hp : pmod (H / 60) 2 = H / 60 - 2 * 2 :=
    pmod_eq _ _ 2 (by norm_num) (by push_cast; linarith)
      (by push_cast; linarith)
  simp only [hsv_to_rgb]
  rw [hh, hp, if_neg (by rintro ⟨-, hc⟩; linarith),
    if_neg (by rintro ⟨-, hc⟩; linarith),
    if_neg (by rintro ⟨-, hc⟩; linarith),
    if_neg (by rintro ⟨-, hc⟩; linarith),
    if_neg (by rintro ⟨-, hc⟩; linarith),
    abs_of_nonneg (by linarith)]
  simp only [Prod.mk.injEq]
  refine ⟨by ring, by ring, by ring⟩

/-- C9: for every RGB triple with nonnegative components (in particular on
all of `[0,1]^3`), `_hsv_to_rgb` inverts `_rgb_to_hsv` exactly over the
rational embedding (the floating-point code agrees up to rounding), so the
HSV remapping bands preserve a color's identity whenever V and S are left
untouched. -/
theorem hsv_roundtrip (r g b : ℚ) (hr0 : 0 ≤ r) (hg0 : 0 ≤ g) (hb0 : 0 ≤ b) :
    hsvRoundTrip r g b = (r, g, b) := by
  have hrM : r ≤ max r (max g b) := le_max_left _ _
  have hgM : g ≤ max r (max g b) := le_trans (le_max_left _ _) (le_max_right _ _)
  have hbM : b ≤ max r (max g b) := le_trans (le_max_right _ _) (le_max_right _ _)
  have hmr : min r (min g b) ≤ r := min_le_left _ _
  have hmg : min r (min g b) ≤ g := le_trans (min_le_right _ _) (min_le_left _ _)
  have hmb : min r (min g b) ≤ b := le_trans (min_le_right _ _) (min_le_right _ _)
  have hm0 : 0 ≤ min r (min g b) := le_min hr0 (le_min hg0 hb0)
  by_cases hd : max r (max g b) - min r (min g b) = 0
  · -- all three inputs are equal
    have hMr : max r (max g b) = r := by linarith
    have hrg : r = g := by linarith
    have hrb : r = b := by linarith
    have hs0 : (if max r (max g b) = 0 then (0:ℚ)
        else (max r (max g b) - min r (min g b)) / max r (max g b)) = 0 := by
      split_ifs with hM00
      · rfl
      · rw [hd, zero_div]
    have hhsv : rgb_to_hsv r g b = ((0:ℚ)/360, 0, max r (max g b)) := by
      simp only [rgb_to_hsv]
      rw [if_pos hd, hs0]
    simp only [hsvRoundTrip, hhsv]
    rw [hsv_sector0 0 0 (max r (max g b)) le_rfl (by norm_num)]
    simp only [Prod.mk.injEq]
    refine ⟨hMr, by rw [hMr, ← hrg]; ring, by rw [hMr, ← hrb]; ring⟩
  · have hdlt : 0 < max r (max g b) - min r (min g b) :=
      lt_of_le_of_ne (by linarith) (Ne.symm hd)
    have hMpos : 0 < max r (max g b) := by linarith
    have hM0 : max r (max g b) ≠ 0 := ne_of_gt hMpos
    by_cases hMr : max r (max g b) = r
    · -- the maximum is r
      by_cases hbg : b ≤ g
      · by_cases hgbeq : g - b = max r (max g b) - min r (min g b)
        · -- boundary: g = max, b = min, hue 60
          have hgMeq : max r (max g b) = g := by linarith
          have hbmn : min r (min g b) = b := by linarith
          have hq : (g - b) / (max r (max g b) - min r (min g b)) = 1 := by
            rw [hgbeq]; exact div_self (ne_of_gt hdlt)
          have hrg : r = g := hMr.symm.trans hgMeq
          have hrne : r ≠ 0 := hMr ▸ hM0
          have hhsv : rgb_to_hsv r g b =
              ((60 * ((g - b) / (max r (max g b) - min r (min g b))) + 360
                  - 360 * 1) / 360,
               (max r (max g b) - min r (min g b)) / max r (max g b),
               max r (max g b)) := by
            simp only [rgb_to_hsv]
            rw [if_neg hd, if_pos hMr, if_neg hM0,
              pmod_eq _ _ 1 (by norm_num) (by push_cast; rw [hq]; norm_num)
                (by push_cast; rw [hq]; norm_num)]
            norm_num
          simp only [hsvRoundTrip, hhsv]
          rw [hsv_sector1 _ _ _ (by rw [hq]; norm_num) (by rw [hq]; norm_num)]
          rw [hq, hMr, hbmn]
          simp only [Prod.mk.injEq]
          refine ⟨?_, hrg, ?_⟩
          · field_simp
            ring
          · field_simp
        · -- interior: hue in [0, 60)
          have hgr : g ≤ r := by linarith
          have hbr : b ≤ r := by linarith
          have hmn : min r (min g b) = b := by
            rw [min_eq_right hbg, min_eq_right hbr]
          have hlt : g - b < max r (max g b) - min r (min g b) :=
            lt_of_le_of_ne (by linarith) hgbeq
          have hq0 : 0 ≤ (g - b) / (max r (max g b) - min r (min g b)) :=
            div_nonneg (by linarith) hdlt.le
          have hq1 : (g - b) / (max r (max g b) - min r (min g b)) < 1 :=
            (div_lt_one hdlt).mpr hlt
          have hrne : r ≠ 0 := hMr ▸ hM0
          have hrbne : r - b ≠ 0 := by
            rw [hMr, hmn] at hdlt; exact ne_of_gt hdlt
          have hhsv : rgb_to_hsv r g b =
              ((60 * ((g - b) / (max r (max g b) - min r (min g b))) + 360
                  - 360 * 1) / 360,
               (max r (max g b) - min r (min g b)) / max r (max g b),
               max r (max g b)) := by
            simp only [rgb_to_hsv]
            rw [if_neg hd, if_pos hMr, if_neg hM0,
              pmod_eq _ _ 1 (by norm_num) (by push_cast; linarith)
                (by push_cast; linarith)]
            norm_num
          simp only [hsvRoundTrip, hhsv]
          rw [hsv_sector0 _ _ _ (by linarith) (by linarith)]
          rw [hMr, hmn]
          simp only [Prod.mk.injEq]
          refine ⟨trivial, ?_, ?_⟩
          · field_simp
            ring
          · field_simp
      · -- g < b: hue in [300, 360)
        have hlt : g < b := lt_of_not_le hbg
        have hbr : b ≤ r := by linarith
        have hmn : min r (min g b) = g := by
          rw [min_eq_left hlt.le, min_eq_right (by linarith : g ≤ r)]
        have hq1 : (g - b) / (max r (max g b) - min r (min g b)) < 0 :=
          div_neg_of_neg_of_pos (by linarith) hdlt
        have hq2 : -1 ≤ (g - b) / (max r (max g b) - min r (min g b)) := by
          rw [le_div_iff₀ hdlt]
          linarith
        have hrne : r ≠ 0 := hMr ▸ hM0
        have hrgne : r - g ≠ 0 := by
          rw [hMr, hmn] at hdlt; exact ne_of_gt hdlt
        have hhsv : rgb_to_hsv r g b =
            ((60 * ((g - b) / (max r (max g b) - min r (min g b))) + 360
                - 360 * 0) / 360,
             (max r (max g b) - min r (min g b)) / max r (max g b),
             max r (max g b)) := by
          simp only [rgb_to_hsv]
          rw [if_neg hd, if_pos hMr, if_neg hM0,
            pmod_eq _ _ 0 (by norm_num) (by push_cast; linarith)
              (by push_cast; linarith)]
          norm_num
        simp only [hsvRoundTrip, hhsv]
        rw [hsv_sector5 _ _ _ (by linarith) (by linarith)]
        rw [hMr, hmn]
        simp only [Prod.mk.injEq]
        refine ⟨trivial, ?_, ?_⟩
        · field_simp
        · field_simp
          ring
    · by_cases hMg : max r (max g b) = g
      · -- the maximum is g (and not r)
        have hrg : r ≤ g := hMg ▸ hrM
        have hbg : b ≤ g := hMg ▸ hbM
        have hgne : g ≠ 0 := hMg ▸ hM0
        by_cases hrb : r ≤ b
        · by_cases heq : b - r = max r (max g b) - min r (min g b)
          · -- boundary: b = max, r = min, hue 180
            have hbMeq : max r (max g b) = b := by linarith
            have hrmn : min r (min g b) = r := by linarith
            have hgb2 : g = b := hMg.symm.trans hbMeq
            have hq : (b - r) / (max r (max g b) - min r (min g b)) = 1 := by
              rw [heq]; exact div_self (ne_of_gt hdlt)
            have hhsv : rgb_to_hsv r g b =
                ((60 * ((b - r) / (max r (max g b) - min r (min g b))) + 120
                    - 360 * 0) / 360,
                 (max r (max g b) - min r (min g b)) / max r (max g b),
                 max r (max g b)) := by
              simp only [rgb_to_hsv]
              rw [if_neg hd, if_neg hMr, if_pos hMg, if_neg hM0,
                pmod_eq _ _ 0 (by norm_num) (by push_cast; rw [hq]; norm_num)
                  (by push_cast; rw [hq]; norm_num)]
              norm_num
            simp only [hsvRoundTrip, hhsv]
            rw [hsv_sector3 _ _ _ (by rw [hq]; norm_num) (by rw [hq]; norm_num)]
            rw [hq, hMg, hrmn]
            simp only [Prod.mk.injEq]
            refine ⟨?_, ?_, hgb2⟩
            · field_simp
            · field_simp
              ring
          · -- interior: hue in [120, 180)
            have hmn : min r (min g b) = r :=
              min_eq_left (le_min hrg hrb)
            have hlt : b - r < max r (max g b) - min r (min g b) :=
              lt_of_le_of_ne (by linarith) heq
            have hq0 : 0 ≤ (b - r) / (max r (max g b) - min r (min g b)) :=
              div_nonneg (by linarith) hdlt.le
            have hq1 : (b - r) / (max r (max g b) - min r (min g b)) < 1 :=
              (div_lt_one hdlt).mpr hlt
            have hgrne : g - r ≠ 0 := by
              rw [hMg, hmn] at hdlt; exact ne_of_gt hdlt
            have hhsv : rgb_to_hsv r g b =
                ((60 * ((b - r) / (max r (max g b) - min r (min g b))) + 120
                    - 360 * 0) / 360,
                 (max r (max g b) - min r (min g b)) / max r (max g b),
                 max r (max g b)) := by
              simp only [rgb_to_hsv]
              rw [if_neg hd, if_neg hMr, if_pos hMg, if_neg hM0,
                pmod_eq _ _ 0 (by norm_num) (by push_cast; linarith)
                  (by push_cast; linarith)]
              norm_num
            simp only [hsvRoundTrip, hhsv]
            rw [hsv_sector2 _ _ _ (by linarith) (by linarith)]
            rw [hMg, hmn]
            simp only [Prod.mk.injEq]
            refine ⟨?_, trivial, ?_⟩
            · field_simp
            · field_simp
              ring
        · -- b < r: hue in [60, 120)
          have hlt : b < r := lt_of_not_le hrb
          have hmn : min r (min g b) = b := by
            rw [min_eq_right (by linarith : b ≤ g), min_eq_right hlt.le]
          have hq1 : (b - r) / (max r (max g b) - min r (min g b)) < 0 :=
            div_neg_of_neg_of_pos (by linarith) hdlt
          have hq2 : -1 ≤ (b - r) / (max r (max g b) - min r (min g b)) := by
            rw [le_div_iff₀ hdlt]
            linarith
          have hgbne : g - b ≠ 0 := by
            rw [hMg, hmn] at hdlt; exact ne_of_gt hdlt
          have hhsv : rgb_to_hsv r g b =
              ((60 * ((b - r) / (max r (max g b) - min r (min g b))) + 120
                  - 360 * 0) / 360,
               (max r (max g b) - min r (min g b)) / max r (max g b),
               max r (max g b)) := by
            simp only [rgb_to_hsv]
            rw [if_neg hd, if_neg hMr, if_pos hMg, if_neg hM0,
              pmod_eq _ _ 0 (by norm_num) (by push_cast; linarith)
                (by push_cast; linarith)]
            norm_num
          simp only [hsvRoundTrip, hhsv]
          rw [hsv_sector1 _ _ _ (by linarith) (by linarith)]
          rw [hMg, hmn]
          simp only [Prod.mk.injEq]
          refine ⟨?_, trivial, ?_⟩
          · field_simp
            ring
          · field_simp
      · -- the maximum is b (and neither r nor g)
        have hMb : max r (max g b) = b := by
          rcases max_choice r (max g b) with h | h
          · exact absurd h hMr
          · rcases max_choice g b with h2 | h2
            · exact absurd (h.trans h2) hMg
            · exact h.trans h2
        have hrlt : r < max r (max g b) :=
          lt_of_le_of_ne hrM (fun hh => hMr hh.symm)
        have hglt : g < max r (max g b) :=
          lt_of_le_of_ne hgM (fun hh => hMg hh.symm)
        have hrb : r ≤ b := hMb ▸ hrM
        have hgb : g ≤ b := hMb ▸ hgM
        have hbne : b ≠ 0 := hMb ▸ hM0
        by_cases hgr : g ≤ r
        · -- hue in [240, 300)
          have hmn : min r (min g b) = g := by
            rw [min_eq_left hgb, min_eq_right hgr]
          have hlt : r - g < max r (max g b) - min r (min g b) := by
            rw [hmn]; linarith
          have hq0 : 0 ≤ (r - g) / (max r (max g b) - min r (min g b)) :=
            div_nonneg (by linarith) hdlt.le
          have hq1 : (r - g) / (max r (max g b) - min r (min g b)) < 1 :=
            (div_lt_one hdlt).mpr hlt
          have hbgne : b - g ≠ 0 := by
            rw [hMb, hmn] at hdlt; exact ne_of_gt hdlt
          have hhsv : rgb_to_hsv r g b =
              ((60 * ((r - g) / (max r (max g b) - min r (min g b))) + 240
                  - 360 * 0) / 360,
               (max r (max g b) - min r (min g b)) / max r (max g b),
               max r (max g b)) := by
            simp only [rgb_to_hsv]
            rw [if_neg hd, if_neg hMr, if_neg hMg, if_neg hM0,
              pmod_eq _ _ 0 (by norm_num) (by push_cast; linarith)
                (by push_cast; linarith)]
            norm_num
          simp only [hsvRoundTrip, hhsv]
          rw [hsv_sector4 _ _ _ (by linarith) (by linarith)]
          rw [hMb, hmn]
          simp only [Prod.mk.injEq]
          refine ⟨?_, ?_, trivial⟩
          · field_simp
            ring
          · field_simp
        · -- hue in (180, 240)
          have hlt : r < g := lt_of_not_le hgr
          have hmn : min r (min g b) = r :=
            min_eq_left (le_min hlt.le hrb)
          have hlt2 : g - r < max r (max g b) - min r (min g b) := by
            rw [hmn]; linarith
          have hq1 : (r - g) / (max r (max g b) - min r (min g b)) < 0 :=
            div_neg_of_neg_of_pos (by linarith) hdlt
          have hq2 : -1 ≤ (r - g) / (max r (max g b) - min r (min g b)) := by
            rw [le_div_iff₀ hdlt]
            linarith
          have hbrne : b - r ≠ 0 := by
            rw [hMb, hmn] at hdlt; exact ne_of_gt hdlt
          have hhsv : rgb_to_hsv r g b =
              ((60 * ((r - g) / (max r (max g b) - min r (min g b))) + 240
                  - 360 * 0) / 360,
               (max r (max g b) - min r (min g b)) / max r (max g b),
               max r (max g b)) := by
            simp only [rgb_to_hsv]
            rw [if_neg hd, if_neg hMr, if_neg hMg, if_neg hM0,
              pmod_eq _ _ 0 (by norm_num) (by push_cast; linarith)
                (by push_cast; linarith)]
            norm_num
          simp only [hsvRoundTrip, hhsv]
          rw [hsv_sector3 _ _ _ (by linarith) (by linarith)]
          rw [hMb, hmn]
          simp only [Prod.mk.injEq]
          refine ⟨?_, ?_, trivial⟩
          · field_simp
          · field_simp
            ring

/-- Witness for `hsv_roundtrip` at the interior point `(0.2, 0.7, 0.4)`. -/
theorem hsv_roundtrip_witness :
    hsvRoundTrip (1/5) (7/10) (2/5) = (1/5, 7/10, 2/5) :=
  hsv_roundtrip (1/5) (7/10) (2/5) (by norm_num) (by norm_num) (by norm_num)

end PDM
